import Mathlib

/-!
Shallow embedding of the model orchestrator of `omicidx_etl`
(`src/omicidx_etl/transformations/warehouse.py` and
`src/omicidx_etl/transformations/deploy.py`), together with theorems
settling the specification claims about it.

Conventions of the embedding:
* Python dataclasses become Lean structures with the same field names and
  defaults.
* The DuckDB connection is modelled as an explicit state (`WarehouseDB`)
  recording a trace of every statement issued plus the contents of the
  `meta` bookkeeping tables, and an `Engine` oracle deciding which model
  statements fail and which row counts `fetchone` reports.
* `datetime.now()` is modelled by a logical clock (`Nat`) carried in the
  state and bumped at each call.
* Machine details with no bearing on any claim are abstracted by
  deterministic functions: the MD5 hex digest of the SQL body is an
  opaque deterministic function of the text, and the float megabyte
  rounding in the catalog is a deterministic integer function of the
  byte size.
-/

namespace OmicidxWarehouse

/-- Configuration for the data warehouse (`WarehouseConfig` in warehouse.py). -/
structure WarehouseConfig where
  db_path : String := "omicidx_warehouse.duckdb"
  models_dir : String := "omicidx_etl/transformations/models"
  export_dir : String := "exports"
  threads : Nat := 16
  memory_limit : String := "32GB"
  temp_directory : Option String := none
deriving Repr, DecidableEq

/-- Configuration for model exports (`ExportConfig` in warehouse.py). -/
structure ExportConfig where
  enabled : Bool := false
  path : Option String := none
  format : String := "parquet"
  compression : String := "zstd"
  partition_by : Option (List String) := none
  row_group_size : Nat := 100000
deriving Repr, DecidableEq

/-- Configuration for a single model (`ModelConfig` in warehouse.py).
The Python dataclass stores `sql_path`; execution reads that file.  The
embedding carries the file's contents directly in the `sql` field. -/
structure ModelConfig where
  name : String
  layer : String
  sql : String := "select 1"
  materialization : String := "view"
  depends_on : List String := []
  description : Option String := none
  columns : List (String × String) := []
  tags : List String := []
  exportConf : ExportConfig := {}   -- field `export` in the source (keyword in Lean)
deriving Repr, DecidableEq

/-- Fully qualified name `layer.name` (property `full_name`). -/
def ModelConfig.full_name (m : ModelConfig) : String :=
  m.layer ++ "." ++ m.name

/-- Property `should_export` of `ModelConfig`. -/
def ModelConfig.should_export (m : ModelConfig) : Bool :=
  m.exportConf.enabled || (m.materialization == "export_table" || m.materialization == "export_view")

/-- Decidable equality for `Except`, used to evaluate concrete scheduler runs. -/
instance {ε α : Type} [DecidableEq ε] [DecidableEq α] : DecidableEq (Except ε α) := fun x y =>
  match x, y with
  | .error a, .error b =>
    if h : a = b then .isTrue (congrArg Except.error h)
    else .isFalse (fun hh => h (Except.error.inj hh))
  | .error _, .ok _ => .isFalse (fun hh => Except.noConfusion hh)
  | .ok _, .error _ => .isFalse (fun hh => Except.noConfusion hh)
  | .ok a, .ok b =>
    if h : a = b then .isTrue (congrArg Except.ok h)
    else .isFalse (fun hh => h (Except.ok.inj hh))

/-! ## Dependency graph builder and scheduler (`topological_sort`)

`topological_sort` builds `graph = {model.full_name: model for model in models}`
and `dependencies = {model.full_name: set(model.depends_on) for model in models}`.
Both dicts are keyed by full name with later entries overwriting earlier ones;
`findModel` reproduces that last-write-wins lookup.  Iterating Python's
`set(model.depends_on)` yields each declared dependency exactly once in an
unspecified order; visiting is idempotent (a processed node is skipped via
`visited`), so iterating the declared list directly, duplicates included, is
observationally equivalent, and the embedding iterates `depends_on` itself. -/

/-- Last-write-wins dictionary lookup: `{m.full_name: m for m in models}[name]`. -/
def findModel (models : List ModelConfig) (name : String) : Option ModelConfig :=
  models.foldl (fun acc m => if m.full_name == name then some m else acc) none

/-- The declared dependencies of the node, `dependencies.get(name, [])`. -/
def depsOf (models : List ModelConfig) (name : String) : List String :=
  match findModel models name with
  | some m => m.depends_on
  | none => []

/-- The list of full names of the models, i.e. the dict keys (with duplicates). -/
def fullNames (models : List ModelConfig) : List String :=
  models.map ModelConfig.full_name

/-- The message of the `ValueError` raised on a cycle. -/
def cycleMsg (name : String) : String :=
  "Circular dependency detected involving: " ++ name

/-- Message of the fuel-exhaustion branch of the embedding; the fuel used by
`topological_sort` is proven sufficient, so this error never escapes. -/
def limitMsg : String := "recursion limit exceeded"

/-- Mutable state of `topological_sort`: the `visited` set, the `temp_visited`
set (a stack: most recently entered node first), and the `result` list. -/
structure SortState where
  visited : List String := []
  temp : List String := []
  result : List ModelConfig := []
deriving Repr, DecidableEq

/-- End of `visit(name)`: `temp_visited.remove(name)`, `visited.add(name)`,
and `if name in graph: result.append(graph[name])`. -/
def finishNode (models : List ModelConfig) (name : String) (st : SortState) : SortState :=
  { visited := name :: st.visited,
    temp := st.temp.erase name,
    result :=
      match findModel models name with
      | some m => st.result ++ [m]
      | none => st.result }

/-- The `for dep in dependencies.get(name, [])` loop of `visit`: resolvable
dependencies are visited, unresolvable ones are dropped with a warning. -/
def visitFold (visit1 : String → SortState → Except String SortState)
    (models : List ModelConfig) : List String → SortState → Except String SortState
  | [], st => .ok st
  | d :: ds, st =>
    if (findModel models d).isSome then
      match visit1 d st with
      | .error e => .error e
      | .ok st2 => visitFold visit1 models ds st2
    else
      visitFold visit1 models ds st

/-- The recursive `visit` of `topological_sort`, with explicit fuel (the real
recursion depth is bounded by the number of distinct graph keys; the fuel
passed by `sortAll` is proven sufficient). -/
def visit (models : List ModelConfig) : Nat → String → SortState → Except String SortState
  | 0 => fun _ _ => .error limitMsg
  | n + 1 => fun name st =>
    if name ∈ st.temp then .error (cycleMsg name)
    else if name ∈ st.visited then .ok st
    else
      match visitFold (visit models n) models (depsOf models name) { st with temp := name :: st.temp } with
      | .error e => .error e
      | .ok st2 => .ok (finishNode models name st2)

/-- The outer loop of `topological_sort`:
`for model in models: if model.full_name not in visited: visit(model.full_name)`. -/
def sortAll (models : List ModelConfig) : List ModelConfig → SortState → Except String SortState
  | [], st => .ok st
  | m :: ms, st =>
    if m.full_name ∈ st.visited then sortAll models ms st
    else
      match visit models (models.length + 1) m.full_name st with
      | .error e => .error e
      | .ok st2 => sortAll models ms st2

/-- `topological_sort(models)`: the result list on success, the `ValueError`
message on a circular dependency. -/
def topological_sort (models : List ModelConfig) : Except String (List ModelConfig) :=
  match sortAll models models { } with
  | .error e => .error e
  | .ok st => .ok st.result

/-- One resolved dependency edge of the graph the scheduler traverses:
`edgeB models a b` holds when the model that `b` resolves to declares a
dependency on `a` and `a` itself resolves to a discovered model. -/
def edgeB (models : List ModelConfig) (a b : String) : Bool :=
  (findModel models a).isSome &&
    (match findModel models b with
     | some m => m.depends_on.contains a
     | none => false)

/-- Propositional form of `edgeB`. -/
def EdgeP (models : List ModelConfig) (a b : String) : Prop :=
  edgeB models a b = true

instance (models : List ModelConfig) (a b : String) : Decidable (EdgeP models a b) :=
  inferInstanceAs (Decidable (edgeB models a b = true))

/-- The resolved dependency graph has a cycle. -/
def CyclicDep (models : List ModelConfig) : Prop :=
  ∃ a, Relation.TransGen (EdgeP models) a a

/-- The resolved dependency graph is acyclic. -/
def AcyclicDep (models : List ModelConfig) : Prop :=
  ∀ a, ¬ Relation.TransGen (EdgeP models) a a

/-! ### Characterization of the last-write-wins lookup -/

theorem foldl_upd_some (name : String) :
    ∀ (ms : List ModelConfig) (acc : Option ModelConfig) (m : ModelConfig),
      ms.foldl (fun acc m => if m.full_name == name then some m else acc) acc = some m →
      (m ∈ ms ∧ m.full_name = name) ∨ acc = some m := by
  intro ms
  induction ms with
  | nil => intro acc m h; right; exact h
  | cons x ms ih =>
    intro acc m h
    rw [List.foldl_cons] at h
    rcases ih _ _ h with ⟨hm, hn⟩ | hacc
    · exact Or.inl ⟨List.mem_cons_of_mem _ hm, hn⟩
    · by_cases hx : (x.full_name == name) = true
      · rw [if_pos hx] at hacc
        cases hacc
        exact Or.inl ⟨List.mem_cons_self _ _, eq_of_beq hx⟩
      · rw [if_neg hx] at hacc
        exact Or.inr hacc

theorem foldl_upd_skip (name : String) :
    ∀ (ms : List ModelConfig) (acc : Option ModelConfig),
      name ∉ fullNames ms →
      ms.foldl (fun acc m => if m.full_name == name then some m else acc) acc = acc := by
  intro ms
  induction ms with
  | nil => intro acc _; rfl
  | cons x ms ih =>
    intro acc hn
    have hn' : ¬ (name = x.full_name ∨ name ∈ fullNames ms) := by
      simpa [fullNames, List.mem_cons] using hn
    rw [List.foldl_cons, if_neg (fun hb => (not_or.mp hn').1 (eq_of_beq hb).symm)]
    exact ih acc (not_or.mp hn').2

theorem foldl_upd_isSome (name : String) :
    ∀ (ms : List ModelConfig) (acc : Option ModelConfig),
      acc.isSome = true →
      (ms.foldl (fun acc m => if m.full_name == name then some m else acc) acc).isSome = true := by
  intro ms
  induction ms with
  | nil => intro acc h; exact h
  | cons x ms ih =>
    intro acc h
    rw [List.foldl_cons]
    by_cases hx : (x.full_name == name) = true
    · rw [if_pos hx]; exact ih _ rfl
    · rw [if_neg hx]; exact ih _ h

theorem findModel_some {models : List ModelConfig} {name : String} {m : ModelConfig}
    (h : findModel models name = some m) : m ∈ models ∧ m.full_name = name := by
  rcases foldl_upd_some name models none m h with h' | h'
  · exact h'
  · cases h'

theorem findModel_isSome_of_mem {models : List ModelConfig} {name : String}
    (h : name ∈ fullNames models) : (findModel models name).isSome = true := by
  simp only [fullNames, List.mem_map] at h
  rcases h with ⟨m, hm, hname⟩
  induction models with
  | nil => cases hm
  | cons x ms ih =>
    show (List.foldl _ (if x.full_name == name then some x else none) ms).isSome = true
    rcases List.mem_cons.mp hm with hm' | hm'
    · subst hm'
      rw [if_pos (beq_iff_eq.mpr hname)]
      exact foldl_upd_isSome name ms (some m) rfl
    · by_cases hx : (x.full_name == name) = true
      · rw [if_pos hx]; exact foldl_upd_isSome name ms (some x) rfl
      · rw [if_neg hx]; exact ih hm'

theorem findModel_mem_of_isSome {models : List ModelConfig} {name : String}
    (h : (findModel models name).isSome = true) : name ∈ fullNames models := by
  rcases Option.isSome_iff_exists.mp h with ⟨m, hm⟩
  rcases findModel_some hm with ⟨hmem, hname⟩
  exact hname ▸ List.mem_map_of_mem ModelConfig.full_name hmem

theorem findModel_self {models : List ModelConfig} {m : ModelConfig}
    (hnd : (fullNames models).Nodup) (hm : m ∈ models) :
    findModel models m.full_name = some m := by
  induction models with
  | nil => cases hm
  | cons x ms ih =>
    have hnd' : (fullNames ms).Nodup := by
      simp only [fullNames, List.map_cons, List.nodup_cons] at hnd
      exact hnd.2
    have hx_not : x.full_name ∉ fullNames ms := by
      simp only [fullNames, List.map_cons, List.nodup_cons] at hnd
      exact hnd.1
    show List.foldl _ (if x.full_name == m.full_name then some x else none) ms = some m
    rcases List.mem_cons.mp hm with hm' | hm'
    · subst hm'
      rw [if_pos (beq_iff_eq.mpr rfl)]
      exact foldl_upd_skip _ _ _ hx_not
    · by_cases hx : (x.full_name == m.full_name) = true
      · exact absurd ((eq_of_beq hx) ▸ List.mem_map_of_mem ModelConfig.full_name hm')
          hx_not
      · rw [if_neg hx]
        exact ih hnd' hm'

/-! ### Fuel bound -/

/-- Number of distinct graph keys not yet on the `temp_visited` stack; the
depth of the remaining recursion is strictly below it. -/
def remainingCount (models : List ModelConfig) (temp : List String) : Nat :=
  (((fullNames models).dedup).filter (fun k => decide (k ∉ temp))).length

theorem length_filter_le_of_imp {α : Type} (p q : α → Bool)
    (himp : ∀ a, p a = true → q a = true) :
    ∀ l : List α, (l.filter p).length ≤ (l.filter q).length := by
  intro l
  induction l with
  | nil => exact Nat.le_refl 0
  | cons x l ih =>
    rw [List.filter_cons, List.filter_cons]
    by_cases hp : p x = true
    · rw [if_pos hp, if_pos (himp x hp)]
      exact Nat.succ_le_succ ih
    · rw [if_neg (by simp [hp])]
      by_cases hq : q x = true
      · rw [if_pos hq]
        exact Nat.le_trans ih (Nat.le_succ _)
      · rw [if_neg (by simp [hq])]
        exact ih

theorem length_filter_lt_of_witness {α : Type} (p q : α → Bool)
    (himp : ∀ a, p a = true → q a = true) (a : α)
    (hpa : p a = false) (hqa : q a = true) :
    ∀ l : List α, a ∈ l → (l.filter p).length < (l.filter q).length := by
  intro l
  induction l with
  | nil => intro h; cases h
  | cons x l ih =>
    intro hmem
    rw [List.filter_cons, List.filter_cons]
    rcases List.mem_cons.mp hmem with hmem' | hmem'
    · subst hmem'
      rw [if_neg (by simp [hpa]), if_pos hqa]
      exact Nat.lt_succ_of_le (length_filter_le_of_imp p q himp l)
    · by_cases hp : p x = true
      · rw [if_pos hp, if_pos (himp x hp)]
        exact Nat.succ_lt_succ (ih hmem')
      · rw [if_neg (by simp [hp])]
        by_cases hq : q x = true
        · rw [if_pos hq]
          exact Nat.lt_succ_of_lt (ih hmem')
        · rw [if_neg (by simp [hq])]
          exact ih hmem'

theorem remainingCount_push {models : List ModelConfig} {temp : List String} {name : String}
    (hk : name ∈ fullNames models) (ht : name ∉ temp) :
    remainingCount models (name :: temp) < remainingCount models temp := by
  unfold remainingCount
  exact length_filter_lt_of_witness
    (fun k => decide (k ∉ name :: temp)) (fun k => decide (k ∉ temp))
    (fun a ha => by
      simp only [decide_eq_true_eq] at ha ⊢
      exact fun hmem => ha (List.mem_cons_of_mem _ hmem))
    name
    (by simp)
    (by simpa using ht)
    ((fullNames models).dedup) (List.mem_dedup.mpr hk)

theorem remainingCount_le (models : List ModelConfig) (temp : List String) :
    remainingCount models temp ≤ models.length := by
  unfold remainingCount
  calc (((fullNames models).dedup).filter _).length
      ≤ ((fullNames models).dedup).length := List.length_filter_le _ _
    _ ≤ (fullNames models).length := (List.dedup_sublist _).length_le
    _ = models.length := List.length_map _ _

/-! ### Cycle extraction from the `temp_visited` stack -/

theorem chain_reach {α : Type} (R : α → α → Prop) :
    ∀ (l : List α) (h : α) (a : α), List.Chain' R (h :: l) → a ∈ l →
      Relation.TransGen R h a := by
  intro l
  induction l with
  | nil => intro h a _ ha; cases ha
  | cons b l ih =>
    intro h a hchain ha
    have hRhb : R h b := (List.chain'_cons.mp hchain).1
    have hchain' : List.Chain' R (b :: l) := (List.chain'_cons.mp hchain).2
    rcases List.mem_cons.mp ha with ha' | ha'
    · subst ha'; exact Relation.TransGen.single hRhb
    · exact Relation.TransGen.head hRhb (ih b a hchain' ha')

theorem cycle_of_mem_temp {models : List ModelConfig} {temp : List String} {name : String}
    (hchain : List.Chain' (EdgeP models) temp)
    (hhead : ∀ h, temp.head? = some h → EdgeP models name h)
    (hmem : name ∈ temp) :
    Relation.TransGen (EdgeP models) name name := by
  cases temp with
  | nil => cases hmem
  | cons h rest =>
    have hedge : EdgeP models name h := hhead h rfl
    rcases List.mem_cons.mp hmem with hmem' | hmem'
    · subst hmem'; exact Relation.TransGen.single hedge
    · exact Relation.TransGen.head hedge (chain_reach (EdgeP models) rest h name hchain hmem')

/-! ### Invariants of the depth-first traversal -/

/-- Every resolvable declared dependency of every result entry resolves to a
model appearing strictly earlier in the result list. -/
def SortedOk (models : List ModelConfig) (res : List ModelConfig) : Prop :=
  ∀ i : Fin res.length, ∀ d ∈ (res.get i).depends_on, ∀ md,
    findModel models d = some md →
    ∃ j : Fin res.length, (j : Nat) < (i : Nat) ∧ res.get j = md

/-- State invariant of the traversal. -/
structure SortInv (models : List ModelConfig) (st : SortState) : Prop where
  disj : ∀ v ∈ st.visited, v ∉ st.temp
  covered : ∀ v ∈ st.visited, ∀ m, findModel models v = some m → m ∈ st.result
  resOk : ∀ m ∈ st.result, findModel models m.full_name = some m
  resVisited : ∀ m ∈ st.result, m.full_name ∈ st.visited
  resNodup : (st.result.map ModelConfig.full_name).Nodup
  sorted : SortedOk models st.result

/-- Postcondition of a successful `visit name`. -/
structure VisitPost (models : List ModelConfig) (st st' : SortState) (name : String) : Prop where
  temp_eq : st'.temp = st.temp
  vis_mono : st.visited ⊆ st'.visited
  name_vis : name ∈ st'.visited
  res_ext : ∃ tail, st'.result = st.result ++ tail
  inv : SortInv models st → SortInv models st'

theorem contains_of_mem {l : List String} {a : String} (h : a ∈ l) : l.contains a = true := by
  simpa using h

theorem mem_of_contains {l : List String} {a : String} (h : l.contains a = true) : a ∈ l := by
  simpa using h

theorem edgeP_intro {models : List ModelConfig} {a b : String} {m : ModelConfig}
    (ha : (findModel models a).isSome = true)
    (hb : findModel models b = some m) (hdep : a ∈ m.depends_on) :
    EdgeP models a b := by
  unfold EdgeP edgeB
  rw [hb]
  simpa [ha] using hdep

theorem edgeP_elim {models : List ModelConfig} {a b : String} (h : EdgeP models a b) :
    (findModel models a).isSome = true ∧
      ∃ m, findModel models b = some m ∧ a ∈ m.depends_on := by
  unfold EdgeP edgeB at h
  cases hb : findModel models b with
  | none =>
    rw [hb] at h
    simp at h
  | some m =>
    rw [hb] at h
    simp only [Bool.and_eq_true] at h
    exact ⟨h.1, m, rfl, mem_of_contains h.2⟩

theorem get_append_left {α : Type} :
    ∀ (l1 l2 : List α) (i : Nat) (h1 : i < l1.length) (h : i < (l1 ++ l2).length),
      (l1 ++ l2).get ⟨i, h⟩ = l1.get ⟨i, h1⟩ := by
  intro l1
  induction l1 with
  | nil => intro l2 i h1 h; cases h1
  | cons x l1 ih =>
    intro l2 i h1 h
    cases i with
    | zero => rfl
    | succ i => exact ih l2 i (Nat.lt_of_succ_lt_succ h1) (Nat.lt_of_succ_lt_succ h)

theorem get_append_fin {α : Type} (l1 l2 : List α) (i : Fin ((l1 ++ l2).length))
    (h1 : (i : Nat) < l1.length) : (l1 ++ l2).get i = l1.get ⟨(i : Nat), h1⟩ :=
  get_append_left l1 l2 (i : Nat) h1 i.isLt

theorem get_append_last {α : Type} :
    ∀ (l : List α) (a : α) (h : l.length < (l ++ [a]).length),
      (l ++ [a]).get ⟨l.length, h⟩ = a := by
  intro l
  induction l with
  | nil => intro a h; rfl
  | cons x l ih => intro a h; exact ih a (by simpa using Nat.lt_of_succ_lt_succ h)

theorem nodup_append_singleton {α : Type} {l : List α} {a : α}
    (h : l.Nodup) (ha : a ∉ l) : (l ++ [a]).Nodup := by
  rw [List.nodup_append]
  refine ⟨h, List.nodup_singleton a, ?_⟩
  intro x hx hxa
  rcases List.mem_singleton.mp hxa with rfl
  exact ha hx

theorem sortedOk_append {models : List ModelConfig} {res : List ModelConfig} {m0 : ModelConfig}
    (hs : SortedOk models res)
    (hdeps : ∀ d ∈ m0.depends_on, ∀ md, findModel models d = some md → md ∈ res) :
    SortedOk models (res ++ [m0]) := by
  intro i d hd md hmd
  have hlen : (res ++ [m0]).length = res.length + 1 := by simp
  by_cases hi : (i : Nat) < res.length
  · rw [get_append_fin res [m0] i hi] at hd
    obtain ⟨j, hj, hjget⟩ := hs ⟨(i : Nat), hi⟩ d hd md hmd
    have hjlt : (j : Nat) < res.length := j.isLt
    refine ⟨⟨(j : Nat), by rw [hlen]; omega⟩, by simpa using hj, ?_⟩
    rw [get_append_fin res [m0] _ (by simpa using hjlt)]
    simpa using hjget
  · have hilt : (i : Nat) < res.length + 1 := by rw [← hlen]; exact i.isLt
    have hi' : (i : Nat) = res.length := by omega
    have hd' : d ∈ m0.depends_on := by
      have hieq : i = ⟨res.length, by rw [hlen]; omega⟩ := Fin.ext hi'
      have hget : (res ++ [m0]).get i = m0 := by
        rw [hieq]
        exact get_append_last res m0 (by rw [hlen]; omega)
      rwa [hget] at hd
    obtain ⟨j, hjget⟩ := List.get_of_mem (hdeps d hd' md hmd)
    have hjlt : (j : Nat) < res.length := j.isLt
    refine ⟨⟨(j : Nat), by rw [hlen]; omega⟩, by show (j : Nat) < (i : Nat); omega, ?_⟩
    rw [get_append_fin res [m0] _ (by simpa using hjlt)]
    simpa using hjget

/-! ### Master lemma for the dependency fold and the recursive visit -/

theorem visitFold_master (models : List ModelConfig)
    (visit1 : String → SortState → Except String SortState) (T : List String) :
    ∀ ds : List String,
      (∀ d ∈ ds, ∀ st2 : SortState, (findModel models d).isSome = true → st2.temp = T →
        (∃ c, visit1 d st2 = .error (cycleMsg c) ∧ Relation.TransGen (EdgeP models) c c) ∨
        (∃ st3, visit1 d st2 = .ok st3 ∧ VisitPost models st2 st3 d)) →
      ∀ st : SortState, st.temp = T →
        (∃ c, visitFold visit1 models ds st = .error (cycleMsg c) ∧
          Relation.TransGen (EdgeP models) c c) ∨
        (∃ st', visitFold visit1 models ds st = .ok st' ∧
          st'.temp = st.temp ∧ st.visited ⊆ st'.visited ∧
          (∃ tail, st'.result = st.result ++ tail) ∧
          (SortInv models st → SortInv models st') ∧
          (∀ d ∈ ds, (findModel models d).isSome = true → d ∈ st'.visited)) := by
  intro ds
  induction ds with
  | nil =>
    intro _ st _
    right
    exact ⟨st, rfl, rfl, fun _ h => h, ⟨[], by simp⟩, fun h => h,
      fun d hd => absurd hd (List.not_mem_nil d)⟩
  | cons d ds ih =>
    intro hv st hT
    show (∃ c, visitFold visit1 models (d :: ds) st = .error (cycleMsg c) ∧ _) ∨ _
    by_cases hd : (findModel models d).isSome = true
    · have hstep := hv d (List.mem_cons_self d ds) st hd hT
      rcases hstep with ⟨c, he, hc⟩ | ⟨st2, he, post⟩
      · left
        refine ⟨c, ?_, hc⟩
        simp only [visitFold, if_pos hd, he]
      · have hT2 : st2.temp = T := post.temp_eq.trans hT
        have hrest := ih (fun d' hd' => hv d' (List.mem_cons_of_mem d hd')) st2 hT2
        rcases hrest with ⟨c, he3, hc⟩ | ⟨st3, he3, htemp3, hvis3, hres3, hinv3, hd3⟩
        · left
          refine ⟨c, ?_, hc⟩
          simp only [visitFold, if_pos hd, he, he3]
        · right
          refine ⟨st3, ?_, htemp3.trans post.temp_eq, ?_, ?_, fun h => hinv3 (post.inv h), ?_⟩
          · simp only [visitFold, if_pos hd, he, he3]
          · exact fun v hvmem => hvis3 (post.vis_mono hvmem)
          · obtain ⟨t1, ht1⟩ := post.res_ext
            obtain ⟨t2, ht2⟩ := hres3
            exact ⟨t1 ++ t2, by rw [ht2, ht1, List.append_assoc]⟩
          · intro d' hd' hd'some
            rcases List.mem_cons.mp hd' with hd'' | hd''
            · subst hd''; exact hvis3 post.name_vis
            · exact hd3 d' hd'' hd'some
    · have hrest := ih (fun d' hd' => hv d' (List.mem_cons_of_mem d hd')) st hT
      rcases hrest with ⟨c, he3, hc⟩ | ⟨st3, he3, htemp3, hvis3, hres3, hinv3, hd3⟩
      · left
        refine ⟨c, ?_, hc⟩
        simp only [visitFold, if_neg hd, he3]
      · right
        refine ⟨st3, ?_, htemp3, hvis3, hres3, hinv3, ?_⟩
        · simp only [visitFold, if_neg hd, he3]
        · intro d' hd' hd'some
          rcases List.mem_cons.mp hd' with hd'' | hd''
          · subst hd''; exact absurd hd'some hd
          · exact hd3 d' hd'' hd'some

theorem finishNode_eq_some {models : List ModelConfig} {name : String} {st : SortState}
    {m0 : ModelConfig} (h : findModel models name = some m0) :
    finishNode models name st =
      { visited := name :: st.visited, temp := st.temp.erase name,
        result := st.result ++ [m0] } := by
  unfold finishNode
  rw [h]

theorem visit_master (models : List ModelConfig) :
    ∀ (n : Nat) (name : String) (st : SortState),
      name ∈ fullNames models →
      (∀ h, st.temp.head? = some h → EdgeP models name h) →
      List.Chain' (EdgeP models) st.temp →
      remainingCount models st.temp < n →
      (∃ c, visit models n name st = .error (cycleMsg c) ∧
        Relation.TransGen (EdgeP models) c c) ∨
      (∃ st', visit models n name st = .ok st' ∧ VisitPost models st st' name) := by
  intro n
  induction n with
  | zero => intro name st _ _ _ hfuel; exact absurd hfuel (Nat.not_lt_zero _)
  | succ n ih =>
    intro name st hkey hhead hchain hfuel
    by_cases htemp : name ∈ st.temp
    · left
      refine ⟨name, ?_, cycle_of_mem_temp hchain hhead htemp⟩
      simp only [visit, if_pos htemp]
    · by_cases hvis : name ∈ st.visited
      · right
        refine ⟨st, ?_, rfl, fun _ h => h, hvis, ⟨[], by simp⟩, fun h => h⟩
        simp only [visit, if_neg htemp, if_pos hvis]
      · obtain ⟨m0, hm0⟩ := Option.isSome_iff_exists.mp (findModel_isSome_of_mem hkey)
        have hdeps_eq : depsOf models name = m0.depends_on := by
          unfold depsOf
          rw [hm0]
        have hv : ∀ d ∈ depsOf models name, ∀ st2 : SortState,
            (findModel models d).isSome = true → st2.temp = name :: st.temp →
            (∃ c, visit models n d st2 = .error (cycleMsg c) ∧
              Relation.TransGen (EdgeP models) c c) ∨
            (∃ st3, visit models n d st2 = .ok st3 ∧ VisitPost models st2 st3 d) := by
          intro d hd st2 hdsome hT2
          refine ih d st2 (findModel_mem_of_isSome hdsome) ?_ ?_ ?_
          · intro h hh
            rw [hT2] at hh
            simp only [List.head?_cons] at hh
            cases hh
            exact edgeP_intro hdsome hm0 (hdeps_eq ▸ hd)
          · rw [hT2]
            refine List.chain'_cons'.mpr ⟨?_, hchain⟩
            intro b hb
            exact hhead b hb
          · rw [hT2]
            exact Nat.lt_of_lt_of_le (remainingCount_push hkey htemp) (Nat.lt_succ_iff.mp hfuel)
        have hfold := visitFold_master models (visit models n) (name :: st.temp)
          (depsOf models name) hv { st with temp := name :: st.temp } rfl
        rcases hfold with ⟨c, he, hc⟩ | ⟨st2, he, htemp2, hvis2, hres2, hinv2, hdeps2⟩
        · left
          refine ⟨c, ?_, hc⟩
          simp only [visit, if_neg htemp, if_neg hvis, he]
        · right
          have htemp2' : st2.temp = name :: st.temp := htemp2
          have herase : st2.temp.erase name = st.temp := by
            rw [htemp2']
            exact List.erase_cons_head name st.temp
          have hm0name : m0.full_name = name := (findModel_some hm0).2
          refine ⟨finishNode models name st2, ?_, ?_⟩
          · simp only [visit, if_neg htemp, if_neg hvis, he]
          · rw [finishNode_eq_some hm0]
            refine ⟨herase, ?_, List.mem_cons_self _ _, ?_, ?_⟩
            · intro v hvmem
              exact List.mem_cons_of_mem _ (hvis2 hvmem)
            · obtain ⟨tail, ht⟩ := hres2
              exact ⟨tail ++ [m0], by rw [ht, List.append_assoc]⟩
            · intro hinv
              have hinv1 : SortInv models { st with temp := name :: st.temp } := by
                refine ⟨?_, hinv.covered, hinv.resOk, hinv.resVisited, hinv.resNodup, hinv.sorted⟩
                intro v hv' hmem
                rcases List.mem_cons.mp hmem with h' | h'
                · subst h'; exact hvis hv'
                · exact hinv.disj v hv' h'
              have hinv2' := hinv2 hinv1
              have hname2 : name ∉ st2.visited := by
                intro hmem
                exact hinv2'.disj name hmem (by rw [htemp2']; exact List.mem_cons_self _ _)
              have hname_res2 : name ∉ st2.result.map ModelConfig.full_name := by
                intro hmem
                obtain ⟨m, hm, hmn⟩ := List.mem_map.mp hmem
                exact hname2 (hmn ▸ hinv2'.resVisited m hm)
              refine ⟨?_, ?_, ?_, ?_, ?_, ?_⟩
              · intro v hvmem
                rw [herase]
                rcases List.mem_cons.mp hvmem with h' | h'
                · subst h'; exact htemp
                · intro hmem
                  exact hinv2'.disj v h' (by rw [htemp2']; exact List.mem_cons_of_mem _ hmem)
              · intro v hvmem m hfm
                rcases List.mem_cons.mp hvmem with h' | h'
                · subst h'
                  rw [hm0] at hfm
                  cases hfm
                  exact List.mem_append_right _ (List.mem_singleton.mpr rfl)
                · exact List.mem_append_left _ (hinv2'.covered v h' m hfm)
              · intro m hm
                rcases List.mem_append.mp hm with h' | h'
                · exact hinv2'.resOk m h'
                · rcases List.mem_singleton.mp h' with rfl
                  rw [hm0name]
                  exact hm0
              · intro m hm
                rcases List.mem_append.mp hm with h' | h'
                · exact List.mem_cons_of_mem _ (hinv2'.resVisited m h')
                · rcases List.mem_singleton.mp h' with rfl
                  rw [hm0name]
                  exact List.mem_cons_self _ _
              · show ((st2.result ++ [m0]).map ModelConfig.full_name).Nodup
                rw [List.map_append]
                simp only [List.map_cons, List.map_nil]
                rw [hm0name]
                exact nodup_append_singleton hinv2'.resNodup hname_res2
              · refine sortedOk_append hinv2'.sorted ?_
                intro d hd md hmd
                have hdvis : d ∈ st2.visited :=
                  hdeps2 d (hdeps_eq ▸ hd) (by rw [hmd]; rfl)
                exact hinv2'.covered d hdvis md hmd

theorem sortAll_master (models : List ModelConfig) :
    ∀ (ms : List ModelConfig) (st : SortState),
      (∀ m ∈ ms, m ∈ models) → st.temp = [] →
      (∃ c, sortAll models ms st = .error (cycleMsg c) ∧
        Relation.TransGen (EdgeP models) c c) ∨
      (∃ st', sortAll models ms st = .ok st' ∧ st'.temp = [] ∧
        st.visited ⊆ st'.visited ∧
        (∀ m ∈ ms, m.full_name ∈ st'.visited) ∧
        (∃ tail, st'.result = st.result ++ tail) ∧
        (SortInv models st → SortInv models st')) := by
  intro ms
  induction ms with
  | nil =>
    intro st _ hT
    right
    exact ⟨st, rfl, hT, fun _ h => h, by simp, ⟨[], by simp⟩, fun h => h⟩
  | cons m ms ih =>
    intro st hmem hT
    by_cases hv : m.full_name ∈ st.visited
    · rcases ih st (fun m' hm' => hmem m' (List.mem_cons_of_mem _ hm')) hT with
        ⟨c, he, hc⟩ | ⟨st', he, h1, h2, h3, h4, h5⟩
      · left
        refine ⟨c, ?_, hc⟩
        simp only [sortAll, if_pos hv, he]
      · right
        refine ⟨st', ?_, h1, h2, ?_, h4, h5⟩
        · simp only [sortAll, if_pos hv, he]
        · intro m' hm'
          rcases List.mem_cons.mp hm' with hm'' | hm''
          · subst hm''; exact h2 hv
          · exact h3 m' hm''
    · have hkey : m.full_name ∈ fullNames models :=
        List.mem_map_of_mem _ (hmem m (List.mem_cons_self m ms))
      have hhead : ∀ h, st.temp.head? = some h → EdgeP models m.full_name h := by
        rw [hT]
        intro h hh
        cases hh
      have hchain : List.Chain' (EdgeP models) st.temp := by
        rw [hT]
        exact List.chain'_nil
      have hfuel : remainingCount models st.temp < models.length + 1 :=
        Nat.lt_succ_of_le (remainingCount_le models st.temp)
      rcases visit_master models (models.length + 1) m.full_name st hkey hhead hchain hfuel with
        ⟨c, he, hc⟩ | ⟨st2, he, post⟩
      · left
        refine ⟨c, ?_, hc⟩
        simp only [sortAll, if_neg hv, he]
      · have hT2 : st2.temp = [] := post.temp_eq.trans hT
        rcases ih st2 (fun m' hm' => hmem m' (List.mem_cons_of_mem _ hm')) hT2 with
          ⟨c, he3, hc⟩ | ⟨st', he3, h1, h2, h3, h4, h5⟩
        · left
          refine ⟨c, ?_, hc⟩
          simp only [sortAll, if_neg hv, he, he3]
        · right
          refine ⟨st', ?_, h1, ?_, ?_, ?_, fun h => h5 (post.inv h)⟩
          · simp only [sortAll, if_neg hv, he, he3]
          · exact fun v hvmem => h2 (post.vis_mono hvmem)
          · intro m' hm'
            rcases List.mem_cons.mp hm' with hm'' | hm''
            · subst hm''; exact h2 post.name_vis
            · exact h3 m' hm''
          · obtain ⟨t1, ht1⟩ := post.res_ext
            obtain ⟨t2, ht2⟩ := h4
            exact ⟨t1 ++ t2, by rw [ht2, ht1, List.append_assoc]⟩

/-! ### Consequences: the observable contract of `topological_sort` -/

/-- Facts holding of every list `topological_sort` returns. -/
structure SortFinal (models : List ModelConfig) (res : List ModelConfig) : Prop where
  resOk : ∀ m ∈ res, findModel models m.full_name = some m
  resNodup : (res.map ModelConfig.full_name).Nodup
  sorted : SortedOk models res
  coverage : ∀ name m, findModel models name = some m → m ∈ res

theorem sort_spec (models : List ModelConfig) :
    (∃ c, topological_sort models = .error (cycleMsg c) ∧
      Relation.TransGen (EdgeP models) c c) ∨
    (∃ res, topological_sort models = .ok res ∧ SortFinal models res) := by
  have h0 : SortInv models {} := by
    refine ⟨?_, ?_, ?_, ?_, ?_, ?_⟩
    · intro v hv; cases hv
    · intro v hv; cases hv
    · intro m hm; cases hm
    · intro m hm; cases hm
    · exact List.nodup_nil
    · intro i; exact absurd i.isLt (by simp)
  rcases sortAll_master models models {} (fun _ h => h) rfl with
    ⟨c, he, hc⟩ | ⟨st', he, _, _, h3, _, h5⟩
  · left
    refine ⟨c, ?_, hc⟩
    unfold topological_sort
    rw [he]
  · right
    refine ⟨st'.result, ?_, ?_⟩
    · unfold topological_sort
      rw [he]
    · have hinv := h5 h0
      refine ⟨hinv.resOk, hinv.resNodup, hinv.sorted, ?_⟩
      intro name m hm
      obtain ⟨hmem, hname⟩ := findModel_some hm
      exact hinv.covered name (hname ▸ h3 m hmem) m hm

theorem sort_error_cycle {models : List ModelConfig} {e : String}
    (h : topological_sort models = .error e) :
    ∃ c, e = cycleMsg c ∧ Relation.TransGen (EdgeP models) c c := by
  rcases sort_spec models with ⟨c, he, hc⟩ | ⟨res, he, _⟩
  · rw [h] at he
    exact ⟨c, Except.error.inj he, hc⟩
  · rw [h] at he
    cases he

theorem sort_ok_final {models res : List ModelConfig}
    (h : topological_sort models = .ok res) : SortFinal models res := by
  rcases sort_spec models with ⟨c, he, _⟩ | ⟨res', he, hf⟩
  · rw [h] at he
    cases he
  · rw [h] at he
    cases he
    exact hf

/-- Index of the model named `a` in a schedule. -/
def posIn (res : List ModelConfig) (a : String) : Nat :=
  res.findIdx (fun m => m.full_name == a)

theorem posIn_get :
    ∀ (res : List ModelConfig), (res.map ModelConfig.full_name).Nodup →
      ∀ (i : Nat) (hi : i < res.length),
        posIn res ((res.get ⟨i, hi⟩).full_name) = i := by
  intro res
  induction res with
  | nil => intro _ i hi; cases hi
  | cons x res ih =>
    intro hnd i hi
    have hnd' : (res.map ModelConfig.full_name).Nodup := (List.nodup_cons.mp hnd).2
    have hx_not : x.full_name ∉ res.map ModelConfig.full_name := (List.nodup_cons.mp hnd).1
    cases i with
    | zero =>
      show (x :: res).findIdx (fun m => m.full_name == x.full_name) = 0
      rw [List.findIdx_cons]
      simp
    | succ i =>
      have hi' : i < res.length := Nat.lt_of_succ_lt_succ hi
      show (x :: res).findIdx (fun m => m.full_name == (res.get ⟨i, hi'⟩).full_name) = i + 1
      rw [List.findIdx_cons]
      have hne : (x.full_name == (res.get ⟨i, hi'⟩).full_name) = false := by
        apply beq_eq_false_iff_ne.mpr
        intro hcontra
        exact hx_not (hcontra ▸ List.mem_map_of_mem _ (List.get_mem res i hi'))
      rw [hne]
      show posIn res ((res.get ⟨i, hi'⟩).full_name) + 1 = i + 1
      rw [ih hnd' i hi']

theorem edge_pos_lt {models res : List ModelConfig} (hf : SortFinal models res)
    {a b : String} (hab : EdgeP models a b) :
    posIn res a < posIn res b ∧ posIn res b < res.length := by
  obtain ⟨ha, mb, hmb, hdep⟩ := edgeP_elim hab
  obtain ⟨ma, hma⟩ := Option.isSome_iff_exists.mp ha
  obtain ⟨i, hi⟩ := List.get_of_mem (hf.coverage b mb hmb)
  have hbname : mb.full_name = b := (findModel_some hmb).2
  have hposb : posIn res b = (i : Nat) := by
    have h := posIn_get res hf.resNodup (i : Nat) i.isLt
    rw [show (⟨(i : Nat), i.isLt⟩ : Fin res.length) = i from rfl, hi, hbname] at h
    exact h
  obtain ⟨j, hj, hjget⟩ := hf.sorted i a (hi ▸ hdep) ma hma
  have haname : ma.full_name = a := (findModel_some hma).2
  have hposa : posIn res a = (j : Nat) := by
    have h := posIn_get res hf.resNodup (j : Nat) j.isLt
    rw [show (⟨(j : Nat), j.isLt⟩ : Fin res.length) = j from rfl, hjget, haname] at h
    exact h
  refine ⟨?_, ?_⟩
  · rw [hposa, hposb]; exact hj
  · rw [hposb]; exact i.isLt

theorem transGen_pos_lt {models res : List ModelConfig} (hf : SortFinal models res)
    {a b : String} (h : Relation.TransGen (EdgeP models) a b) :
    posIn res a < posIn res b ∧ posIn res b < res.length := by
  induction h with
  | single hab => exact edge_pos_lt hf hab
  | tail _ hbc ih => exact ⟨Nat.lt_trans ih.1 (edge_pos_lt hf hbc).1, (edge_pos_lt hf hbc).2⟩

theorem sort_ok_acyclic {models res : List ModelConfig}
    (h : topological_sort models = .ok res) : AcyclicDep models := by
  intro a ha
  exact absurd (transGen_pos_lt (sort_ok_final h) ha).1 (Nat.lt_irrefl _)

theorem sort_acyclic_ok {models : List ModelConfig} (hac : AcyclicDep models) :
    ∃ res, topological_sort models = .ok res := by
  rcases sort_spec models with ⟨c, _, hc⟩ | ⟨res, he, _⟩
  · exact absurd hc (hac c)
  · exact ⟨res, he⟩

theorem sort_ok_perm {models res : List ModelConfig} (hnd : (fullNames models).Nodup)
    (h : topological_sort models = .ok res) : res.Perm models := by
  have hf := sort_ok_final h
  have hsub1 : res ⊆ models := fun m hm => (findModel_some (hf.resOk m hm)).1
  have hsub2 : models ⊆ res := fun m hm => hf.coverage m.full_name m (findModel_self hnd hm)
  have hnd1 : res.Nodup := hf.resNodup.of_map
  have hnd2 : models.Nodup := List.Nodup.of_map ModelConfig.full_name hnd
  exact (hnd1.subperm hsub1).antisymm (hnd2.subperm hsub2)

theorem sort_ok_order {models res : List ModelConfig}
    (h : topological_sort models = .ok res) :
    ∀ (i j : Fin res.length), (res.get j).full_name ∈ (res.get i).depends_on →
      (j : Nat) < (i : Nat) := by
  intro i j hdep
  have hf := sort_ok_final h
  have hok := hf.resOk (res.get j) (List.get_mem res (j : Nat) j.isLt)
  obtain ⟨j', hj', hjget⟩ := hf.sorted i ((res.get j).full_name) hdep (res.get j) hok
  have hres_nodup : res.Nodup := hf.resNodup.of_map
  have hjj : j' = j := (List.Nodup.get_inj_iff hres_nodup).mp hjget
  rw [← hjj]
  exact hj'

/-! ### Acyclicity via a rank function (used to discharge hypotheses on
concrete inputs) -/

theorem edgeP_mem_keys {models : List ModelConfig} {a b : String} (h : EdgeP models a b) :
    a ∈ fullNames models ∧ b ∈ fullNames models := by
  obtain ⟨ha, m, hb, _⟩ := edgeP_elim h
  exact ⟨findModel_mem_of_isSome ha, findModel_mem_of_isSome (by rw [hb]; rfl)⟩

theorem acyclic_of_rank (models : List ModelConfig) (rank : String → Nat)
    (h : (fullNames models).all (fun a => (fullNames models).all (fun b =>
        !(edgeB models a b) || decide (rank a < rank b))) = true) :
    AcyclicDep models := by
  have hedge : ∀ a b, EdgeP models a b → rank a < rank b := by
    intro a b hab
    obtain ⟨hamem, hbmem⟩ := edgeP_mem_keys hab
    simp only [List.all_eq_true] at h
    have h2 := h a hamem b hbmem
    simp only [Bool.or_eq_true, Bool.not_eq_true', decide_eq_true_eq] at h2
    rcases h2 with h2 | h2
    · exact absurd hab (by unfold EdgeP; rw [h2]; simp)
    · exact h2
  have hmono : ∀ x y, Relation.TransGen (EdgeP models) x y → rank x < rank y := by
    intro x y hxy
    induction hxy with
    | single h1 => exact hedge _ _ h1
    | tail _ h1 ih => exact Nat.lt_trans ih (hedge _ _ h1)
  intro a ha
  exact absurd (hmono a a ha) (Nat.lt_irrefl _)

/-! ### The model-subset filter of `run_warehouse` -/

/-- Filtering step of `run_warehouse` (warehouse.py lines 528-532): with a
truthy requested list, keep models whose bare name or full name is requested;
`None` and the empty list (both falsy in Python) disable filtering. -/
def filterRequested (all : List ModelConfig) (req : Option (List String)) : List ModelConfig :=
  match req with
  | none => all
  | some rs =>
    if rs.isEmpty then all
    else all.filter (fun m => rs.contains m.name || rs.contains m.full_name)

theorem filterRequested_subset (all : List ModelConfig) (req : Option (List String)) :
    filterRequested all req ⊆ all := by
  cases req with
  | none => exact fun x h => h
  | some rs =>
    simp only [filterRequested]
    by_cases hw : rs.isEmpty = true
    · rw [if_pos hw]; exact fun x h => h
    · rw [if_neg hw]; exact (List.filter_sublist _).subset

theorem edgeP_of_filtered {all : List ModelConfig} {req : Option (List String)}
    (hnd : (fullNames all).Nodup) {x y : String}
    (h : EdgeP (filterRequested all req) x y) : EdgeP all x y := by
  obtain ⟨hx, my, hmy, hdep⟩ := edgeP_elim h
  obtain ⟨mx, hmx⟩ := Option.isSome_iff_exists.mp hx
  have hmx_all : mx ∈ all := filterRequested_subset all req (findModel_some hmx).1
  have hmy_all : my ∈ all := filterRequested_subset all req (findModel_some hmy).1
  have hmx_name : mx.full_name = x := (findModel_some hmx).2
  have hmy_name : my.full_name = y := (findModel_some hmy).2
  refine edgeP_intro ?_ (hmy_name ▸ findModel_self hnd hmy_all) hdep
  rw [← hmx_name, findModel_self hnd hmx_all]
  rfl

/-! ### Demo models for concrete scheduler runs -/

def cycA : ModelConfig := { name := "a", layer := "demo", depends_on := ["demo.b"] }
def cycB : ModelConfig := { name := "b", layer := "demo", depends_on := ["demo.a"] }

def subC : ModelConfig := { name := "c", layer := "demo", depends_on := ["demo.b"] }
def subA : ModelConfig := { name := "a", layer := "demo" }
def subB : ModelConfig := { name := "b", layer := "demo" }

def subW : ModelConfig := { name := "w", layer := "demo" }
def subX : ModelConfig := { name := "x", layer := "demo" }
def subY : ModelConfig := { name := "y", layer := "demo", depends_on := ["demo.x"] }

def rawX : ModelConfig := { name := "x", layer := "raw" }
def stagingY : ModelConfig := { name := "y", layer := "staging", depends_on := ["raw.x"] }
def martZ : ModelConfig := { name := "z", layer := "mart", depends_on := ["staging.y"] }

/-- Rank used to certify acyclicity of the three-layer demo pipeline. -/
def demoRank (s : String) : Nat :=
  if s == "raw.x" then 0 else if s == "staging.y" then 1 else 2

/-! ### Claim theorems for the scheduler -/

/-- C1: for every list of models (with the data model's globally unique
`layer.name` identities) whose resolved dependency graph is acyclic,
`topological_sort` succeeds, returns a permutation of exactly the input
models, and places every model strictly after every one of its dependencies
that resolves to a discovered model. -/
theorem claim_C1_schedule_acyclic (models : List ModelConfig)
    (hnd : (fullNames models).Nodup) (hac : AcyclicDep models) :
    ∃ res, topological_sort models = .ok res ∧ res.Perm models ∧
      ∀ (i j : Fin res.length), (res.get j).full_name ∈ (res.get i).depends_on →
        (j : Nat) < (i : Nat) := by
  obtain ⟨res, he⟩ := sort_acyclic_ok hac
  exact ⟨res, he, sort_ok_perm hnd he, sort_ok_order he⟩

/-- Witness for C1 at the spec's three-layer scenario: `raw.x`,
`staging.y` (depends on `raw.x`), `mart.z` (depends on `staging.y`). -/
theorem claim_C1_schedule_acyclic_witness :
    ∃ res, topological_sort [rawX, stagingY, martZ] = .ok res ∧
      res.Perm [rawX, stagingY, martZ] ∧
      ∀ (i j : Fin res.length), (res.get j).full_name ∈ (res.get i).depends_on →
        (j : Nat) < (i : Nat) :=
  claim_C1_schedule_acyclic [rawX, stagingY, martZ] (by decide)
    (acyclic_of_rank [rawX, stagingY, martZ] demoRank (by decide))

/-- C2 counterexample: for the two mutually dependent models `demo.a` and
`demo.b`, the raised error message names only `demo.a`; the other model's
name `demo.b` does not occur anywhere in the message, so the message does
not report the full cycle path and does not mention both names. -/
theorem claim_C2_counterexample :
    topological_sort [cycA, cycB] = .error (cycleMsg (cycA.full_name)) ∧
    ¬ (cycB.full_name.toList <:+: (cycleMsg (cycA.full_name)).toList) := by
  refine ⟨by decide, by decide⟩

/-- C2 amended: for every list of models whose resolved dependency graph
contains a cycle, `topological_sort` raises a cycle error whose message names
one model lying on a cycle (not the full path), and never returns an order. -/
theorem claim_C2_cycle_error (models : List ModelConfig) (hc : CyclicDep models) :
    ∃ c, topological_sort models = .error (cycleMsg c) ∧
      Relation.TransGen (EdgeP models) c c := by
  cases h : topological_sort models with
  | ok res =>
    obtain ⟨a, ha⟩ := hc
    exact absurd ha (sort_ok_acyclic h a)
  | error e =>
    obtain ⟨c, hce, hcc⟩ := sort_error_cycle h
    exact ⟨c, by rw [hce], hcc⟩

/-- Witness for the amended C2 at the mutual-dependency pair. -/
theorem claim_C2_cycle_error_witness :
    ∃ c, topological_sort [cycA, cycB] = .error (cycleMsg c) ∧
      Relation.TransGen (EdgeP [cycA, cycB]) c c :=
  claim_C2_cycle_error [cycA, cycB]
    ⟨"demo.a",
      Relation.TransGen.tail
        (Relation.TransGen.single
          (show EdgeP [cycA, cycB] "demo.a" "demo.b" by decide))
        (show EdgeP [cycA, cycB] "demo.b" "demo.a" by decide)⟩

/-- C3 counterexample: with discovery order `[demo.c, demo.a, demo.b]` where
`demo.c` depends on `demo.b`, the full schedule is `[b, c, a]` but filtering
to the surviving subset `{a, b}` schedules `[a, b]`: the two surviving models
`a` and `b` appear in opposite relative orders, so subset selection can
reorder the remaining models relative to each other. -/
theorem claim_C3_counterexample :
    topological_sort [subC, subA, subB] = .ok [subB, subC, subA] ∧
    topological_sort (filterRequested [subC, subA, subB] (some ["a", "b"])) =
      .ok [subA, subB] ∧
    posIn [subB, subC, subA] subB.full_name < posIn [subB, subC, subA] subA.full_name ∧
    posIn [subA, subB] subA.full_name < posIn [subA, subB] subB.full_name := by
  refine ⟨by decide, by decide, by decide, by decide⟩

/-- C3 amended: subset filtering can reorder independent surviving models,
but any two surviving models related by a resolved dependency chain lying
inside the filtered subset keep their relative order (dependency first) in
both the subset schedule and the full schedule. -/
theorem claim_C3_chain_order (all : List ModelConfig) (req : Option (List String))
    (resF resS : List ModelConfig) (a b : String)
    (hnd : (fullNames all).Nodup)
    (hF : topological_sort all = .ok resF)
    (hS : topological_sort (filterRequested all req) = .ok resS)
    (hchain : Relation.TransGen (EdgeP (filterRequested all req)) a b) :
    posIn resS a < posIn resS b ∧ posIn resF a < posIn resF b := by
  have hchainF : Relation.TransGen (EdgeP all) a b :=
    Relation.TransGen.mono (fun x y h => edgeP_of_filtered hnd h) hchain
  exact ⟨(transGen_pos_lt (sort_ok_final hS) hchain).1,
    (transGen_pos_lt (sort_ok_final hF) hchainF).1⟩

/-- Witness for the amended C3: `demo.y` depends on `demo.x`; filtering
`[w, x, y]` to `{x, y}` keeps the dependency before the dependent in both
schedules. -/
theorem claim_C3_chain_order_witness :
    posIn [subX, subY] "demo.x" < posIn [subX, subY] "demo.y" ∧
    posIn [subW, subX, subY] "demo.x" < posIn [subW, subX, subY] "demo.y" :=
  claim_C3_chain_order [subW, subX, subY] (some ["x", "y"])
    [subW, subX, subY] [subX, subY] "demo.x" "demo.y"
    (by decide) (by decide) (by decide)
    (Relation.TransGen.single (by decide))

/-! ### C7: dropping an unresolvable dependency is a no-op

Removing a declared dependency name that resolves to no discovered model from
one model's `depends_on` list leaves the entire scheduler run unchanged (same
success or failure, same error message, same sequence of scheduled names).
Proven by a step-by-step simulation of the two runs. -/

/-- The model with one occurrence of dependency name `d` removed. -/
def eraseDep (d : String) (m : ModelConfig) : ModelConfig :=
  { m with depends_on := m.depends_on.erase d }

/-- A model of the modified list is the corresponding original model, either
unchanged or with the dependency erased. -/
def DepRel (d : String) (a b : ModelConfig) : Prop :=
  b = a ∨ b = eraseDep d a

theorem depRel_full_name {d : String} {a b : ModelConfig} (h : DepRel d a b) :
    b.full_name = a.full_name := by
  rcases h with rfl | rfl
  · rfl
  · rfl

/-- Lifting `DepRel` to optional lookup results. -/
def OptDepRel (d : String) : Option ModelConfig → Option ModelConfig → Prop
  | none, none => True
  | some a, some b => DepRel d a b
  | _, _ => False

theorem findModel_rel {d : String} {models models' : List ModelConfig}
    (hrel : List.Forall₂ (DepRel d) models models') (name : String) :
    OptDepRel d (findModel models name) (findModel models' name) := by
  suffices h : ∀ (ms ms' : List ModelConfig), List.Forall₂ (DepRel d) ms ms' →
      ∀ (acc acc' : Option ModelConfig), OptDepRel d acc acc' →
      OptDepRel d
        (ms.foldl (fun acc m => if m.full_name == name then some m else acc) acc)
        (ms'.foldl (fun acc m => if m.full_name == name then some m else acc) acc') by
    exact h models models' hrel none none trivial
  intro ms ms' hrel2
  induction hrel2 with
  | nil => intro acc acc' h; exact h
  | @cons x y ms2 ms2' hxy _ ih =>
    intro acc acc' hacc
    rw [List.foldl_cons, List.foldl_cons]
    apply ih
    by_cases hx : (x.full_name == name) = true
    · rw [if_pos hx, if_pos (show (y.full_name == name) = true by
        rw [depRel_full_name hxy]; exact hx)]
      exact hxy
    · rw [if_neg hx, if_neg (show ¬ (y.full_name == name) = true by
        rw [depRel_full_name hxy]; exact hx)]
      exact hacc

theorem findModel_rel_isSome {d : String} {models models' : List ModelConfig}
    (hrel : List.Forall₂ (DepRel d) models models') (name : String) :
    (findModel models' name).isSome = (findModel models name).isSome := by
  have h := findModel_rel hrel name
  cases hm : findModel models name with
  | none =>
    cases hm' : findModel models' name with
    | none => rfl
    | some b => rw [hm, hm'] at h; exact h.elim
  | some a =>
    cases hm' : findModel models' name with
    | none => rw [hm, hm'] at h; exact h.elim
    | some b => rfl

theorem depsOf_rel {d : String} {models models' : List ModelConfig}
    (hrel : List.Forall₂ (DepRel d) models models') (name : String) :
    depsOf models' name = depsOf models name ∨
      depsOf models' name = (depsOf models name).erase d := by
  have h := findModel_rel hrel name
  unfold depsOf
  cases hm : findModel models name with
  | none =>
    cases hm' : findModel models' name with
    | none => exact Or.inl rfl
    | some b => rw [hm, hm'] at h; exact h.elim
  | some a =>
    cases hm' : findModel models' name with
    | none => rw [hm, hm'] at h; exact h.elim
    | some b =>
      rw [hm, hm'] at h
      rcases h with rfl | rfl
      · exact Or.inl rfl
      · exact Or.inr rfl

/-- The two runs agree on everything the scheduler observes: the `visited`
and `temp_visited` sets and the names of the result list. -/
def SEq (st st' : SortState) : Prop :=
  st'.visited = st.visited ∧ st'.temp = st.temp ∧
    st'.result.map ModelConfig.full_name = st.result.map ModelConfig.full_name

/-- Simulation relation on run outcomes (first component: original run). -/
def ExceptSim : Except String SortState → Except String SortState → Prop
  | .error e, .error e' => e' = e
  | .ok s, .ok s' => SEq s s'
  | _, _ => False

theorem visitFold_skip (visit1 : String → SortState → Except String SortState)
    (models : List ModelConfig) (d : String)
    (hd : (findModel models d).isSome = false) :
    ∀ (ds : List String) (st : SortState),
      visitFold visit1 models (ds.erase d) st = visitFold visit1 models ds st := by
  intro ds
  induction ds with
  | nil => intro st; rfl
  | cons x ds ih =>
    intro st
    by_cases hx : x = d
    · subst hx
      have hskip : visitFold visit1 models (x :: ds) st = visitFold visit1 models ds st := by
        simp only [visitFold]
        rw [if_neg (by rw [hd]; simp)]
      rw [List.erase_cons_head, hskip]
    · rw [List.erase_cons_tail]
      · simp only [visitFold]
        by_cases hxr : (findModel models x).isSome = true
        · rw [if_pos hxr, if_pos hxr]
          cases h2 : visit1 x st with
          | error e => rfl
          | ok st2 => exact ih st2
        · rw [if_neg hxr, if_neg hxr]
          exact ih st
      · simp [hx]

theorem visitFold_sim (models models' : List ModelConfig)
    (visit1 visit1' : String → SortState → Except String SortState)
    (hsim : ∀ name st st', SEq st st' → ExceptSim (visit1 name st) (visit1' name st'))
    (hres : ∀ name, (findModel models' name).isSome = (findModel models name).isSome) :
    ∀ (ds : List String) (st st' : SortState), SEq st st' →
      ExceptSim (visitFold visit1 models ds st) (visitFold visit1' models' ds st') := by
  intro ds
  induction ds with
  | nil => intro st st' h; exact h
  | cons x ds ih =>
    intro st st' hseq
    simp only [visitFold]
    rw [hres x]
    by_cases hxr : (findModel models x).isSome = true
    · rw [if_pos hxr, if_pos hxr]
      have h1 := hsim x st st' hseq
      revert h1
      cases visit1 x st with
      | error e =>
        cases visit1' x st' with
        | error e2 => intro h1; exact h1
        | ok s2' => intro h1; exact h1.elim
      | ok s2 =>
        cases visit1' x st' with
        | error e2 => intro h1; exact h1.elim
        | ok s2' => intro h1; exact ih s2 s2' h1
    · rw [if_neg hxr, if_neg hxr]
      exact ih st st' hseq

theorem finishNode_sim {d : String} {models models' : List ModelConfig}
    (hrel : List.Forall₂ (DepRel d) models models') (name : String)
    (s2 s2' : SortState) (h : SEq s2 s2') :
    SEq (finishNode models name s2) (finishNode models' name s2') := by
  obtain ⟨hv, ht, hr⟩ := h
  have hfm := findModel_rel hrel name
  refine ⟨by simp [finishNode, hv], by simp [finishNode, ht], ?_⟩
  show (finishNode models' name s2').result.map _ = (finishNode models name s2).result.map _
  unfold finishNode
  cases hm : findModel models name with
  | none =>
    cases hm' : findModel models' name with
    | none => simpa using hr
    | some b => rw [hm, hm'] at hfm; exact hfm.elim
  | some a =>
    cases hm' : findModel models' name with
    | none => rw [hm, hm'] at hfm; exact hfm.elim
    | some b =>
      rw [hm, hm'] at hfm
      simp only [List.map_append, List.map_cons, List.map_nil]
      rw [hr, depRel_full_name hfm]

theorem visit_sim (models models' : List ModelConfig) (d : String)
    (hrel : List.Forall₂ (DepRel d) models models')
    (hd : (findModel models d).isSome = false) :
    ∀ (n : Nat) (name : String) (st st' : SortState), SEq st st' →
      ExceptSim (visit models n name st) (visit models' n name st') := by
  intro n
  induction n with
  | zero => intro name st st' _; exact rfl
  | succ n ih =>
    intro name st st' hseq
    obtain ⟨hv, ht, hr⟩ := hseq
    simp only [visit]
    by_cases htemp : name ∈ st.temp
    · rw [if_pos htemp, if_pos (show name ∈ st'.temp by rw [ht]; exact htemp)]
      exact rfl
    · rw [if_neg htemp, if_neg (show name ∉ st'.temp by rw [ht]; exact htemp)]
      by_cases hvis : name ∈ st.visited
      · rw [if_pos hvis, if_pos (show name ∈ st'.visited by rw [hv]; exact hvis)]
        exact ⟨hv, ht, hr⟩
      · rw [if_neg hvis, if_neg (show name ∉ st'.visited by rw [hv]; exact hvis)]
        have hres := fun nm => findModel_rel_isSome hrel nm
        have hseq1 : SEq { st with temp := name :: st.temp }
            { st' with temp := name :: st'.temp } := ⟨hv, by show name :: st'.temp = name :: st.temp; rw [ht], hr⟩
        have hfold : ExceptSim
            (visitFold (visit models n) models (depsOf models name)
              { st with temp := name :: st.temp })
            (visitFold (visit models' n) models' (depsOf models name)
              { st' with temp := name :: st'.temp }) :=
          visitFold_sim models models' _ _ ih hres (depsOf models name) _ _ hseq1
        rcases depsOf_rel hrel name with hde | hde
        · rw [hde]
          revert hfold
          cases visitFold (visit models n) models (depsOf models name)
              { st with temp := name :: st.temp } with
          | error e =>
            cases visitFold (visit models' n) models' (depsOf models name)
                { st' with temp := name :: st'.temp } with
            | error e2 => intro hfold; exact hfold
            | ok s2' => intro hfold; exact hfold.elim
          | ok s2 =>
            cases visitFold (visit models' n) models' (depsOf models name)
                { st' with temp := name :: st'.temp } with
            | error e2 => intro hfold; exact hfold.elim
            | ok s2' => intro hfold; exact finishNode_sim hrel name s2 s2' hfold
        · have hd' : (findModel models' d).isSome = false := by rw [hres d]; exact hd
          rw [hde, visitFold_skip (visit models' n) models' d hd' (depsOf models name) _]
          revert hfold
          cases visitFold (visit models n) models (depsOf models name)
              { st with temp := name :: st.temp } with
          | error e =>
            cases visitFold (visit models' n) models' (depsOf models name)
                { st' with temp := name :: st'.temp } with
            | error e2 => intro hfold; exact hfold
            | ok s2' => intro hfold; exact hfold.elim
          | ok s2 =>
            cases visitFold (visit models' n) models' (depsOf models name)
                { st' with temp := name :: st'.temp } with
            | error e2 => intro hfold; exact hfold.elim
            | ok s2' => intro hfold; exact finishNode_sim hrel name s2 s2' hfold

theorem sortAll_sim (models models' : List ModelConfig) (d : String)
    (hrel : List.Forall₂ (DepRel d) models models')
    (hd : (findModel models d).isSome = false) :
    ∀ (ms ms' : List ModelConfig), List.Forall₂ (DepRel d) ms ms' →
      ∀ (st st' : SortState), SEq st st' →
        ExceptSim (sortAll models ms st) (sortAll models' ms' st') := by
  intro ms ms' hms
  induction hms with
  | nil => intro st st' h; exact h
  | @cons x y ms2 ms2' hxy _ ih =>
    intro st st' hseq
    obtain ⟨hv, ht, hr⟩ := hseq
    simp only [sortAll]
    rw [depRel_full_name hxy, hv]
    by_cases hvx : x.full_name ∈ st.visited
    · rw [if_pos hvx, if_pos hvx]
      exact ih st st' ⟨hv, ht, hr⟩
    · rw [if_neg hvx, if_neg hvx]
      have hlen : models'.length = models.length := (List.Forall₂.length_eq hrel).symm
      rw [hlen]
      have hv2 := visit_sim models models' d hrel hd (models.length + 1) x.full_name st st'
        ⟨hv, ht, hr⟩
      revert hv2
      cases visit models (models.length + 1) x.full_name st with
      | error e =>
        cases visit models' (models.length + 1) x.full_name st' with
        | error e2 => intro hv2; exact hv2
        | ok s2' => intro hv2; exact hv2.elim
      | ok s2 =>
        cases visit models' (models.length + 1) x.full_name st' with
        | error e2 => intro hv2; exact hv2.elim
        | ok s2' => intro hv2; exact ih s2 s2' hv2

/-- C7: a declared dependency that resolves to no discovered model never
prevents scheduling and never affects the schedule: removing one occurrence
of it from any model's declared list leaves the outcome of
`topological_sort` unchanged, both on the sequence of scheduled names and on
any raised error. -/
theorem claim_C7_unresolvable_noop (pre post : List ModelConfig) (m : ModelConfig)
    (d : String) (hd : (findModel (pre ++ m :: post) d).isSome = false) :
    Except.map (List.map ModelConfig.full_name)
        (topological_sort (pre ++ eraseDep d m :: post)) =
      Except.map (List.map ModelConfig.full_name)
        (topological_sort (pre ++ m :: post)) := by
  have hrel : List.Forall₂ (DepRel d) (pre ++ m :: post) (pre ++ eraseDep d m :: post) := by
    refine List.rel_append ?_ ?_
    · exact List.forall₂_same.mpr (fun x _ => Or.inl rfl)
    · exact List.Forall₂.cons (Or.inr rfl) (List.forall₂_same.mpr (fun x _ => Or.inl rfl))
  have hsim := sortAll_sim (pre ++ m :: post) (pre ++ eraseDep d m :: post) d hrel hd
    (pre ++ m :: post) (pre ++ eraseDep d m :: post) hrel { } { } ⟨rfl, rfl, rfl⟩
  unfold topological_sort
  revert hsim
  cases sortAll (pre ++ m :: post) (pre ++ m :: post) { } with
  | error e =>
    cases sortAll (pre ++ eraseDep d m :: post) (pre ++ eraseDep d m :: post) { } with
    | error e2 =>
      intro hsim
      have h2 : e2 = e := hsim
      rw [h2]
    | ok s2' => intro hsim; exact hsim.elim
  | ok s2 =>
    cases sortAll (pre ++ eraseDep d m :: post) (pre ++ eraseDep d m :: post) { } with
    | error e2 => intro hsim; exact hsim.elim
    | ok s2' =>
      intro hsim
      have h2 : SEq s2 s2' := hsim
      show Except.ok (s2'.result.map ModelConfig.full_name) =
        Except.ok (s2.result.map ModelConfig.full_name)
      rw [h2.2.2]

def ghostM : ModelConfig :=
  { name := "g", layer := "demo", depends_on := ["demo.x", "ghost.table"] }

/-- Witness for C7: dropping the unresolvable `ghost.table` from `demo.g`
leaves the schedule of `[demo.x, demo.g, demo.y]` unchanged. -/
theorem claim_C7_unresolvable_noop_witness :
    Except.map (List.map ModelConfig.full_name)
        (topological_sort ([subX] ++ eraseDep "ghost.table" ghostM :: [subY])) =
      Except.map (List.map ModelConfig.full_name)
        (topological_sort ([subX] ++ ghostM :: [subY])) :=
  claim_C7_unresolvable_noop [subX] [subY] ghostM "ghost.table" (by decide)

/-! ## Execution engine, provenance store, and run loop

The DuckDB connection becomes an explicit state: a trace of every statement
issued plus the contents of the three `meta` bookkeeping tables and a logical
clock standing for `datetime.now()`.  An `Engine` oracle decides which of the
model's own statements raise and which row count `fetchone` reports; the
bookkeeping statements themselves are modelled as succeeding, matching the
claims' scope (engine-level failure of a model's DDL or export). -/

/-- A row of `meta.model_runs`. -/
structure RunRow where
  run_id : String
  model_name : String
  layer : String
  started_at : Nat
  completed_at : Option Nat := none
  status : String
  error_message : Option String := none
  rows_affected : Option Nat := none
  execution_time_seconds : Option Nat := none
  sql_hash : Option String := none
deriving Repr, DecidableEq

/-- A row of `meta.model_lineage`. -/
structure LineageRow where
  model_name : String
  depends_on_model : String
  layer : String
deriving Repr, DecidableEq

/-- A row of `meta.model_docs`. -/
structure DocRow where
  model_name : String
  layer : String
  description : Option String
  columns : List (String × String)
  tags : List String
deriving Repr, DecidableEq

/-- One statement issued to the engine, classified by call site. -/
inductive EngineCall where
  | pragmaSet (s : String)
  | createSchema (s : String)
  | createMetaTable (t : String)
  | insertRun (run_id : String) (model_name : String) (layer : String)
      (started : Nat) (hash : String)
  | updateRunSuccess (run_id : String) (completed : Nat) (rows : Option Nat) (secs : Nat)
  | updateRunError (run_id : String) (err : String)
  | modelDDL (sql : String)
  | exportCopy (sql : String)
  | deleteLineage
  | insertLineage (model_name : String) (dep : String) (layer : String)
  | upsertDoc (model_name : String) (layer : String)
deriving Repr, DecidableEq

/-- The warehouse database state. -/
structure WarehouseDB where
  trace : List EngineCall := []
  model_runs : List RunRow := []
  lineage : List LineageRow := []
  docs : List DocRow := []
  clock : Nat := 0
deriving Repr, DecidableEq

/-- External engine oracle: which model statements raise (with what error
text), and the row count `fetchone` reports for `CREATE TABLE AS`. -/
structure Engine where
  fails : String → Option String
  rowCount : String → Nat

/-- An engine on which every statement succeeds. -/
def okEngine : Engine := { fails := fun _ => none, rowCount := fun _ => 0 }

/-- The MD5 hex digest of the SQL body, modelled as an opaque deterministic
function of the text; no claim depends on the digest's value. -/
def sql_hash_of (sql : String) : String := sql

/-- `UPDATE meta.model_runs SET ... WHERE run_id = ?`. -/
def updateRuns (runs : List RunRow) (rid : String) (f : RunRow → RunRow) : List RunRow :=
  runs.map (fun r => if r.run_id == rid then f r else r)

/-- Statements issued by `WarehouseConnection.__enter__`: the pragmas, the
four `CREATE SCHEMA IF NOT EXISTS`, and the three idempotent
`CREATE TABLE IF NOT EXISTS meta.*` statements. -/
def initCalls (config : WarehouseConfig) : List EngineCall :=
  [EngineCall.pragmaSet ("threads=" ++ toString config.threads),
   EngineCall.pragmaSet ("memory_limit=" ++ config.memory_limit)] ++
  (match config.temp_directory with
   | some t => [EngineCall.pragmaSet ("temp_directory=" ++ t)]
   | none => []) ++
  [EngineCall.createSchema ("raw"), EngineCall.createSchema ("staging"),
   EngineCall.createSchema ("mart"), EngineCall.createSchema ("meta"),
   EngineCall.createMetaTable ("model_runs"),
   EngineCall.createMetaTable ("model_lineage"),
   EngineCall.createMetaTable ("model_docs")]

/-- `WarehouseConnection.__enter__` (pragma configuration and schema
initialization); the meta tables already present in the state are untouched
(`IF NOT EXISTS`). -/
def openConnection (config : WarehouseConfig) (db : WarehouseDB) : WarehouseDB :=
  { db with trace := db.trace ++ initCalls config }

/-- Export target path of `_export_model`: the configured relative path under
`export_dir`, defaulting to `layer/name.parquet`. -/
def exportPath (config : WarehouseConfig) (model : ModelConfig) : String :=
  match model.exportConf.path with
  | some p => config.export_dir ++ "/" ++ p
  | none => config.export_dir ++ "/" ++ model.layer ++ "/" ++ model.name ++ ".parquet"

/-- The `PARTITION_BY` clause of the COPY statement. -/
def partitionClause (model : ModelConfig) : String :=
  match model.exportConf.partition_by with
  | some cols => ", PARTITION_BY (" ++ String.intercalate ", " cols ++ ")"
  | none => ""

/-- The `COPY ... TO ...` statement built by `_export_model` (whitespace
condensed onto one line). -/
def copySql (model : ModelConfig) (path : String) : String :=
  "COPY " ++ model.layer ++ "." ++ model.name ++ " TO '" ++ path ++ "' (FORMAT " ++
    model.exportConf.format ++ ", COMPRESSION " ++ model.exportConf.compression ++
    ", ROW_GROUP_SIZE " ++ toString model.exportConf.row_group_size ++
    partitionClause model ++ ")"

/-- `_export_model`: a no-op returning `None` unless `should_export`;
otherwise issue the COPY through the failure oracle and return the export
path (the directory `mkdir` is a pure filesystem side effect and is not an
engine statement). -/
def exportModel (eng : Engine) (model : ModelConfig) (config : WarehouseConfig)
    (db : WarehouseDB) : WarehouseDB × Except String (Option String) :=
  if ¬ model.should_export then (db, .ok none)
  else
    let path := exportPath config model
    let sql := copySql model path
    let db1 := { db with trace := db.trace ++ [EngineCall.exportCopy sql] }
    match eng.fails sql with
    | some err => (db1, .error err)
    | none => (db1, .ok (some path))

/-- The `CREATE OR REPLACE VIEW` statement of `execute_model`. -/
def viewSql (model : ModelConfig) : String :=
  "CREATE OR REPLACE VIEW " ++ model.layer ++ "." ++ model.name ++ " AS\n" ++ model.sql

/-- The `CREATE OR REPLACE TABLE ... AS` statement of `execute_model`. -/
def tableSql (model : ModelConfig) : String :=
  "CREATE OR REPLACE TABLE " ++ model.layer ++ "." ++ model.name ++ " AS\n" ++ model.sql

/-- The materialization dispatch of `execute_model` (warehouse.py lines
386-419): issue the DDL for the model's kind through the failure oracle, then
any export; produce the rows-affected value and export path, or the raised
error text.  An unsupported materialization raises `ValueError` without any
engine call. -/
def stepModel (eng : Engine) (model : ModelConfig) (config : WarehouseConfig)
    (db : WarehouseDB) : WarehouseDB × Except String (Option Nat × Option String) :=
  if model.materialization == "view" then
    let sql := viewSql model
    let db1 := { db with trace := db.trace ++ [EngineCall.modelDDL sql] }
    match eng.fails sql with
    | some err => (db1, .error err)
    | none => (db1, .ok (none, none))
  else if model.materialization == "table" then
    let sql := tableSql model
    let db1 := { db with trace := db.trace ++ [EngineCall.modelDDL sql] }
    match eng.fails sql with
    | some err => (db1, .error err)
    | none => (db1, .ok (some (eng.rowCount sql), none))
  else if model.materialization == "export_view" then
    let sql := viewSql model
    let db1 := { db with trace := db.trace ++ [EngineCall.modelDDL sql] }
    match eng.fails sql with
    | some err => (db1, .error err)
    | none =>
      match exportModel eng model config db1 with
      | (db2, .error err) => (db2, .error err)
      | (db2, .ok path) => (db2, .ok (none, path))
  else if model.materialization == "export_table" then
    let sql := tableSql model
    let db1 := { db with trace := db.trace ++ [EngineCall.modelDDL sql] }
    match eng.fails sql with
    | some err => (db1, .error err)
    | none =>
      match exportModel eng model config db1 with
      | (db2, .error err) => (db2, .error err)
      | (db2, .ok path) => (db2, .ok (some (eng.rowCount sql), path))
  else if model.materialization == "external_table" then
    let sql := model.sql
    let db1 := { db with trace := db.trace ++ [EngineCall.modelDDL sql] }
    match eng.fails sql with
    | some err => (db1, .error err)
    | none => (db1, .ok (none, none))
  else
    (db, .error ("Unsupported materialization: " ++ model.materialization))

/-- The dictionary returned by `execute_model` (keys absent in a branch are
`none`). -/
structure ExecResult where
  run_id : String
  model_name : String
  status : String
  sql_hash : Option String := none
  execution_time_seconds : Option Nat := none
  rows_affected : Option Nat := none
  export_path : Option String := none
  error : Option String := none
deriving Repr, DecidableEq

/-- `execute_model`: run id from the clock (`datetime.now()` timestamp), the
dry-run early return before any statement, the `running` insert, the
materialization step, and the success/error completion update.  A failure of
the model's own statements is caught and recorded; the function always
returns a result record instead of propagating the exception. -/
def execute_model (eng : Engine) (model : ModelConfig) (config : WarehouseConfig)
    (dry_run : Bool) (db : WarehouseDB) : WarehouseDB × ExecResult :=
  let run_id := model.full_name ++ "_" ++ toString db.clock
  let hash := sql_hash_of model.sql
  if dry_run then
    ({ db with clock := db.clock + 1 },
     { run_id := run_id, model_name := model.full_name, status := "dry_run",
       sql_hash := some hash })
  else
    let started := db.clock + 1
    let db1 : WarehouseDB :=
      { db with
        clock := db.clock + 2,
        trace := db.trace ++
          [EngineCall.insertRun run_id model.name model.layer started hash],
        model_runs := db.model_runs ++
          [{ run_id := run_id, model_name := model.name, layer := model.layer,
             started_at := started, status := "running", sql_hash := some hash }] }
    match stepModel eng model config db1 with
    | (db2, .ok (rows, path)) =>
      let completed := db2.clock
      let secs := completed - started
      ({ db2 with
         clock := db2.clock + 1,
         trace := db2.trace ++ [EngineCall.updateRunSuccess run_id completed rows secs],
         model_runs := updateRuns db2.model_runs run_id (fun r =>
           { r with
             completed_at := some completed, status := "success",
             rows_affected := rows, execution_time_seconds := some secs }) },
       { run_id := run_id, model_name := model.full_name, status := "success",
         execution_time_seconds := some secs, rows_affected := rows,
         export_path := path })
    | (db2, .error err) =>
      ({ db2 with
         clock := db2.clock + 1,
         trace := db2.trace ++ [EngineCall.updateRunError run_id err],
         model_runs := updateRuns db2.model_runs run_id (fun r =>
           { r with
             completed_at := some db2.clock, status := "error",
             error_message := some err }) },
       { run_id := run_id, model_name := model.full_name, status := "error",
         error := some err })

/-- Last component of a dependency identifier: `dep.split('.')[-1]`
(everything up to the last `.` stripped; the split is never empty). -/
def lastComponent (dep : String) : String :=
  (dep.splitOn ".").getLastD ""

/-- `update_metadata`: full lineage replacement (`DELETE FROM
meta.model_lineage`, then one INSERT per declared dependency storing the
model's bare name, the dependency's last component, and the model's layer)
followed by one `INSERT OR REPLACE` docs upsert per model. -/
def update_metadata (models : List ModelConfig) (db : WarehouseDB) : WarehouseDB :=
  let db1 := { db with trace := db.trace ++ [EngineCall.deleteLineage], lineage := [] }
  let db2 := models.foldl (fun acc m =>
    m.depends_on.foldl (fun acc2 dep =>
      { acc2 with
        trace := acc2.trace ++
          [EngineCall.insertLineage m.name (lastComponent dep) m.layer],
        lineage := acc2.lineage ++
          [{ model_name := m.name, depends_on_model := lastComponent dep,
             layer := m.layer }] }) acc) db1
  models.foldl (fun acc m =>
    { acc with
      trace := acc.trace ++ [EngineCall.upsertDoc m.name m.layer],
      docs := acc.docs.filter (fun r => !(r.model_name == m.name)) ++
        [{ model_name := m.name, layer := m.layer, description := m.description,
           columns := m.columns, tags := m.tags }] }) db2

/-- The per-model loop of `run_warehouse`: append each result and stop after
an error when fail-fast is set (the error record itself is kept). -/
def runLoop (eng : Engine) (config : WarehouseConfig) (dry_run fail_fast : Bool) :
    List ModelConfig → WarehouseDB → WarehouseDB × List ExecResult
  | [], db => (db, [])
  | m :: ms, db =>
    let p := execute_model eng m config dry_run db
    if fail_fast && p.2.status == "error" then
      (p.1, [p.2])
    else
      let q := runLoop eng config dry_run fail_fast ms p.1
      (q.1, p.2 :: q.2)

/-- `run_warehouse`: discovery is a filesystem read and is passed in as the
`discovered` list; filter to any requested subset, sort (a cycle aborts the
run before any engine side effect), open the connection (pragma and
schema/meta-table initialization), write lineage and docs unless dry-running,
then execute each model in order. -/
def run_warehouse (eng : Engine) (config : WarehouseConfig)
    (requested : Option (List String)) (dry_run : Bool) (fail_fast : Bool)
    (discovered : List ModelConfig) (db0 : WarehouseDB) :
    Except String (WarehouseDB × List ExecResult) :=
  let all := filterRequested discovered requested
  match topological_sort all with
  | .error e => .error e
  | .ok sorted =>
    let db1 := openConnection config db0
    let db2 := if dry_run then db1 else update_metadata sorted db1
    .ok (runLoop eng config dry_run fail_fast sorted db2)

/-- Trace of a completed run (empty when the run aborted on a cycle). -/
def runTrace (r : Except String (WarehouseDB × List ExecResult)) : List EngineCall :=
  match r with
  | .ok (db, _) => db.trace
  | .error _ => []

/-- Result records of a completed run. -/
def runRecs (r : Except String (WarehouseDB × List ExecResult)) : List ExecResult :=
  match r with
  | .ok (_, rs) => rs
  | .error _ => []

/-! ### Helper lemmas about the execution engine -/

theorem exportModel_model_runs (eng : Engine) (model : ModelConfig)
    (config : WarehouseConfig) (db : WarehouseDB) :
    (exportModel eng model config db).1.model_runs = db.model_runs := by
  unfold exportModel
  split_ifs with h
  all_goals cases hf : eng.fails (copySql model (exportPath config model)) <;> simp [hf]

theorem stepModel_model_runs (eng : Engine) (model : ModelConfig)
    (config : WarehouseConfig) (db : WarehouseDB) :
    (stepModel eng model config db).1.model_runs = db.model_runs := by
  unfold stepModel
  split_ifs with h1 h2 h3 h4 h5
  · cases hf : eng.fails (viewSql model) <;> simp [hf]
  · cases hf : eng.fails (tableSql model) <;> simp [hf]
  · cases hf : eng.fails (viewSql model) with
    | none =>
      simp only [hf]
      rcases hx : exportModel eng model config
        { db with trace := db.trace ++ [EngineCall.modelDDL (viewSql model)] } with ⟨db2, ex⟩
      have hruns : db2.model_runs = db.model_runs := by
        have hh := exportModel_model_runs eng model config
          { db with trace := db.trace ++ [EngineCall.modelDDL (viewSql model)] }
        rw [hx] at hh
        exact hh
      cases ex <;> simpa using hruns
    | some err => simp [hf]
  · cases hf : eng.fails (tableSql model) with
    | none =>
      simp only [hf]
      rcases hx : exportModel eng model config
        { db with trace := db.trace ++ [EngineCall.modelDDL (tableSql model)] } with ⟨db2, ex⟩
      have hruns : db2.model_runs = db.model_runs := by
        have hh := exportModel_model_runs eng model config
          { db with trace := db.trace ++ [EngineCall.modelDDL (tableSql model)] }
        rw [hx] at hh
        exact hh
      cases ex <;> simpa using hruns
    | some err => simp [hf]
  · cases hf : eng.fails model.sql <;> simp [hf]
  · rfl

theorem updateRuns_mem {runs : List RunRow} {r : RunRow} {rid : String}
    (f : RunRow → RunRow) (h : r ∈ runs) (hb : (r.run_id == rid) = true) :
    f r ∈ updateRuns runs rid f := by
  unfold updateRuns
  exact List.mem_map.mpr ⟨r, h, by simp [hb]⟩

theorem execute_model_model_name (eng : Engine) (model : ModelConfig)
    (config : WarehouseConfig) (dry_run : Bool) (db : WarehouseDB) :
    (execute_model eng model config dry_run db).2.model_name = model.full_name := by
  simp only [execute_model]
  split_ifs with h
  · rfl
  · split <;> rfl

/-! ### C4: dry run -/

theorem execute_model_dry (eng : Engine) (model : ModelConfig) (config : WarehouseConfig)
    (db : WarehouseDB) :
    execute_model eng model config true db =
      ({ db with clock := db.clock + 1 },
       { run_id := model.full_name ++ "_" ++ toString db.clock,
         model_name := model.full_name, status := "dry_run",
         sql_hash := some (sql_hash_of model.sql) }) := rfl

theorem runLoop_dry (eng : Engine) (config : WarehouseConfig) (fail_fast : Bool) :
    ∀ (ms : List ModelConfig) (db : WarehouseDB),
      (runLoop eng config true fail_fast ms db).1.trace = db.trace ∧
      (runLoop eng config true fail_fast ms db).1.model_runs = db.model_runs ∧
      (runLoop eng config true fail_fast ms db).1.lineage = db.lineage ∧
      (runLoop eng config true fail_fast ms db).1.docs = db.docs ∧
      ∀ r ∈ (runLoop eng config true fail_fast ms db).2, r.status = "dry_run" := by
  intro ms
  induction ms with
  | nil =>
    intro db
    exact ⟨rfl, rfl, rfl, rfl, fun r hr => absurd hr (List.not_mem_nil r)⟩
  | cons m ms ih =>
    intro db
    obtain ⟨it, ir, il, idq, is⟩ := ih { db with clock := db.clock + 1 }
    simp only [runLoop, execute_model_dry]
    rw [if_neg (by simp)]
    refine ⟨it, ir, il, idq, ?_⟩
    intro r hr
    rcases List.mem_cons.mp hr with hr' | hr'
    · subst hr'; rfl
    · exact is r hr'

/-- C4 counterexample: in a dry run of one view model, the connection open
still issues the `CREATE SCHEMA IF NOT EXISTS raw` DDL against the engine,
so a dry run is not free of DDL. -/
theorem claim_C4_counterexample :
    EngineCall.createSchema ("raw") ∈
      runTrace (run_warehouse okEngine { } none true true [subA] { }) := by
  decide

/-- C4 amended: in a dry run, beyond the connection-open initialization
(pragmas, `CREATE SCHEMA IF NOT EXISTS`, and the idempotent meta-table
creation), no DDL is issued, no Provenance Store write occurs (`model_runs`,
`model_lineage` and `model_docs` are untouched), and every returned record
carries status `dry_run`. -/
theorem claim_C4_dry_run_init_only (eng : Engine) (config : WarehouseConfig)
    (requested : Option (List String)) (fail_fast : Bool)
    (discovered : List ModelConfig) (db0 : WarehouseDB)
    (db : WarehouseDB) (recs : List ExecResult)
    (h : run_warehouse eng config requested true fail_fast discovered db0 = .ok (db, recs)) :
    db.trace = db0.trace ++ initCalls config ∧
    db.model_runs = db0.model_runs ∧ db.lineage = db0.lineage ∧ db.docs = db0.docs ∧
    ∀ r ∈ recs, r.status = "dry_run" := by
  simp only [run_warehouse] at h
  cases hs : topological_sort (filterRequested discovered requested) with
  | error e =>
    rw [hs] at h
    cases h
  | ok sorted =>
    rw [hs] at h
    simp only [if_pos] at h
    have h2 := Except.ok.inj h
    obtain ⟨ht, hr, hl, hd, hstat⟩ := runLoop_dry eng config fail_fast sorted
      (openConnection config db0)
    rw [h2] at ht hr hl hd hstat
    exact ⟨ht, hr, hl, hd, hstat⟩

def dryDemoDB : WarehouseDB := { trace := initCalls { }, clock := 1 }

def dryDemoRec : ExecResult :=
  { run_id := "demo.a_0", model_name := "demo.a", status := "dry_run",
    sql_hash := some ("select 1") }

/-- Witness for the amended C4 at a one-model dry run. -/
theorem claim_C4_dry_run_init_only_witness :
    dryDemoDB.trace = ({ } : WarehouseDB).trace ++ initCalls { } ∧
    dryDemoDB.model_runs = ({ } : WarehouseDB).model_runs ∧
    dryDemoDB.lineage = ({ } : WarehouseDB).lineage ∧
    dryDemoDB.docs = ({ } : WarehouseDB).docs ∧
    ∀ r ∈ [dryDemoRec], r.status = "dry_run" :=
  claim_C4_dry_run_init_only okEngine { } none true [subA] { } dryDemoDB [dryDemoRec]
    (by decide)

/-! ### C5: engine failures are recorded, not propagated -/

/-- C5: when the engine fails the model's own statements during a non-dry
run, `execute_model` returns an error result (instead of propagating the
exception) carrying the engine's error text, and `meta.model_runs` afterwards
contains a record for this model with status `error` and that error text. -/
theorem claim_C5_error_recorded (eng : Engine) (model : ModelConfig)
    (config : WarehouseConfig) (db : WarehouseDB) (err : String)
    (hstep : ∀ db2, (stepModel eng model config db2).2 = .error err) :
    (execute_model eng model config false db).2.status = "error" ∧
    (execute_model eng model config false db).2.error = some err ∧
    ∃ row ∈ (execute_model eng model config false db).1.model_runs,
      row.status = "error" ∧ row.error_message = some err ∧
      row.model_name = model.name ∧ row.layer = model.layer := by
  simp only [execute_model]
  rw [if_neg (by simp)]
  rcases hsm : stepModel eng model config
    { db with
      clock := db.clock + 2,
      trace := db.trace ++
        [EngineCall.insertRun (model.full_name ++ "_" ++ toString db.clock)
          model.name model.layer (db.clock + 1) (sql_hash_of model.sql)],
      model_runs := db.model_runs ++
        [{ run_id := model.full_name ++ "_" ++ toString db.clock,
           model_name := model.name, layer := model.layer,
           started_at := db.clock + 1, status := "running",
           sql_hash := some (sql_hash_of model.sql) }] } with ⟨db2, out⟩
  have hout : out = .error err := (congrArg Prod.snd hsm).symm.trans (hstep _)
  subst hout
  refine ⟨rfl, rfl, ?_⟩
  have hruns : db2.model_runs = db.model_runs ++
      [{ run_id := model.full_name ++ "_" ++ toString db.clock,
         model_name := model.name, layer := model.layer,
         started_at := db.clock + 1, status := "running",
         sql_hash := some (sql_hash_of model.sql) }] := by
    have := stepModel_model_runs eng model config
      { db with
        clock := db.clock + 2,
        trace := db.trace ++
          [EngineCall.insertRun (model.full_name ++ "_" ++ toString db.clock)
            model.name model.layer (db.clock + 1) (sql_hash_of model.sql)],
        model_runs := db.model_runs ++
          [{ run_id := model.full_name ++ "_" ++ toString db.clock,
             model_name := model.name, layer := model.layer,
             started_at := db.clock + 1, status := "running",
             sql_hash := some (sql_hash_of model.sql) }] }
    rw [hsm] at this
    exact this
  refine ⟨_, updateRuns_mem _ (by
      rw [hruns]
      exact List.mem_append_right _ (List.mem_singleton.mpr rfl)) (by simp), rfl, rfl, rfl, rfl⟩

def failAllEngine : Engine := { fails := fun _ => some ("exploded"), rowCount := fun _ => 0 }

def failM : ModelConfig := { name := "f", layer := "demo", sql := "boom" }

/-- Witness for C5: an engine failing every statement yields an error record
in `meta.model_runs` with the engine's text, and `execute_model` returns. -/
theorem claim_C5_error_recorded_witness :
    (execute_model failAllEngine failM { } false { }).2.status = "error" ∧
    (execute_model failAllEngine failM { } false { }).2.error = some ("exploded") ∧
    ∃ row ∈ (execute_model failAllEngine failM { } false { }).1.model_runs,
      row.status = "error" ∧ row.error_message = some ("exploded") ∧
      row.model_name = failM.name ∧ row.layer = failM.layer :=
  claim_C5_error_recorded failAllEngine failM { } { } ("exploded") (fun _ => rfl)

/-! ### C10: lineage edges store base names only -/

/-- C10: `update_metadata` replaces the lineage table with exactly one edge
per declared dependency of each model, storing the model's bare name (no
layer qualification), the dependency identifier stripped to the part after
its last `.`, and the depending model's own layer; the dependency's layer is
never persisted. -/
theorem claim_C10_lineage_base_names (models : List ModelConfig) (db : WarehouseDB) :
    (update_metadata models db).lineage =
      models.flatMap (fun m => m.depends_on.map (fun dep =>
        { model_name := m.name, depends_on_model := lastComponent dep,
          layer := m.layer })) := by
  unfold update_metadata
  have hdocs : ∀ (ms : List ModelConfig) (acc : WarehouseDB),
      (ms.foldl (fun acc m =>
        { acc with
          trace := acc.trace ++ [EngineCall.upsertDoc m.name m.layer],
          docs := acc.docs.filter (fun r => !(r.model_name == m.name)) ++
            [{ model_name := m.name, layer := m.layer, description := m.description,
               columns := m.columns, tags := m.tags }] }) acc).lineage = acc.lineage := by
    intro ms
    induction ms with
    | nil => intro acc; rfl
    | cons m ms ih => intro acc; rw [List.foldl_cons]; exact ih _
  rw [hdocs]
  have hdeps : ∀ (m : ModelConfig) (deps : List String) (acc : WarehouseDB),
      (deps.foldl (fun acc2 dep =>
        { acc2 with
          trace := acc2.trace ++
            [EngineCall.insertLineage m.name (lastComponent dep) m.layer],
          lineage := acc2.lineage ++
            [{ model_name := m.name, depends_on_model := lastComponent dep,
               layer := m.layer }] }) acc).lineage =
      acc.lineage ++ deps.map (fun dep =>
        { model_name := m.name, depends_on_model := lastComponent dep,
          layer := m.layer }) := by
    intro m deps
    induction deps with
    | nil => intro acc; simp
    | cons dep deps ih =>
      intro acc
      rw [List.foldl_cons, ih]
      simp
  have hmods : ∀ (ms : List ModelConfig) (acc : WarehouseDB),
      (ms.foldl (fun acc m =>
        m.depends_on.foldl (fun acc2 dep =>
          { acc2 with
            trace := acc2.trace ++
              [EngineCall.insertLineage m.name (lastComponent dep) m.layer],
            lineage := acc2.lineage ++
              [{ model_name := m.name, depends_on_model := lastComponent dep,
                 layer := m.layer }] }) acc) acc).lineage =
      acc.lineage ++ ms.flatMap (fun m => m.depends_on.map (fun dep =>
        { model_name := m.name, depends_on_model := lastComponent dep,
          layer := m.layer })) := by
    intro ms
    induction ms with
    | nil => intro acc; simp
    | cons m ms ih =>
      intro acc
      rw [List.foldl_cons, ih, hdeps]
      simp
  rw [hmods]
  simp

/-! ### C6: fail-fast stops scheduling after the first error -/

/-- C6: in a fail-fast non-dry run of three scheduled models where the first
succeeds and the second errors with non-empty text, the run's record set is
exactly a `success` record followed by an `error` record carrying the
engine's text (one of each), and the third model has no record at all. -/
theorem claim_C6_fail_fast (eng : Engine) (config : WarehouseConfig)
    (m1 m2 m3 : ModelConfig) (db0 : WarehouseDB) (err : String)
    (hsort : topological_sort [m1, m2, m3] = .ok [m1, m2, m3])
    (h1 : ∀ db, (execute_model eng m1 config false db).2.status = "success")
    (h2s : ∀ db, (execute_model eng m2 config false db).2.status = "error")
    (h2e : ∀ db, (execute_model eng m2 config false db).2.error = some err)
    (herr : err ≠ "")
    (hn13 : m1.full_name ≠ m3.full_name) (hn23 : m2.full_name ≠ m3.full_name) :
    ∃ r1 r2,
      runRecs (run_warehouse eng config none false true [m1, m2, m3] db0) = [r1, r2] ∧
      r1.status = "success" ∧ r2.status = "error" ∧
      r2.error = some err ∧ r2.error ≠ some "" ∧
      ((runRecs (run_warehouse eng config none false true [m1, m2, m3] db0)).filter
        (fun r => r.status == "success")).length = 1 ∧
      ((runRecs (run_warehouse eng config none false true [m1, m2, m3] db0)).filter
        (fun r => r.status == "error")).length = 1 ∧
      ∀ r ∈ runRecs (run_warehouse eng config none false true [m1, m2, m3] db0),
        r.model_name ≠ m3.full_name := by
  have hfr : filterRequested [m1, m2, m3] none = [m1, m2, m3] := rfl
  have hrecs : runRecs (run_warehouse eng config none false true [m1, m2, m3] db0) =
      [(execute_model eng m1 config false
          (update_metadata [m1, m2, m3] (openConnection config db0))).2,
       (execute_model eng m2 config false
          (execute_model eng m1 config false
            (update_metadata [m1, m2, m3] (openConnection config db0))).1).2] := by
    simp only [run_warehouse, hfr, hsort, runRecs, runLoop]
    rw [h1, h2s]
    simp
  refine ⟨_, _, hrecs, h1 _, h2s _, h2e _, ?_, ?_, ?_, ?_⟩
  · rw [h2e]
    intro hc
    exact herr (Option.some.inj hc)
  · rw [hrecs]
    simp [List.filter_cons, h1, h2s]
  · rw [hrecs]
    simp [List.filter_cons, h1, h2s]
  · rw [hrecs]
    intro r hr
    rcases List.mem_cons.mp hr with hr' | hr'
    · subst hr'
      rw [execute_model_model_name]
      exact hn13
    · rcases List.mem_cons.mp hr' with hr'' | hr''
      · subst hr''
        rw [execute_model_model_name]
        exact hn23
      · cases hr''

def wm1 : ModelConfig := { name := "m1", layer := "demo", sql := "s1" }
def wm2 : ModelConfig := { name := "m2", layer := "demo", sql := "s2" }
def wm3 : ModelConfig := { name := "m3", layer := "demo", sql := "s3" }

/-- Engine that fails exactly the second demo model's view creation. -/
def failSecondEngine : Engine :=
  { fails := fun s => if s == viewSql wm2 then some ("engine exploded") else none,
    rowCount := fun _ => 0 }

/-- Witness for C6 at a concrete three-model fail-fast run. -/
theorem claim_C6_fail_fast_witness :
    ∃ r1 r2,
      runRecs (run_warehouse failSecondEngine { } none false true [wm1, wm2, wm3] { }) =
        [r1, r2] ∧
      r1.status = "success" ∧ r2.status = "error" ∧
      r2.error = some ("engine exploded") ∧ r2.error ≠ some "" ∧
      ((runRecs (run_warehouse failSecondEngine { } none false true [wm1, wm2, wm3] { })).filter
        (fun r => r.status == "success")).length = 1 ∧
      ((runRecs (run_warehouse failSecondEngine { } none false true [wm1, wm2, wm3] { })).filter
        (fun r => r.status == "error")).length = 1 ∧
      ∀ r ∈ runRecs (run_warehouse failSecondEngine { } none false true [wm1, wm2, wm3] { }),
        r.model_name ≠ wm3.full_name :=
  claim_C6_fail_fast failSecondEngine { } wm1 wm2 wm3 { } ("engine exploded")
    (by decide) (fun _ => rfl) (fun _ => rfl) (fun _ => rfl)
    (by decide) (by decide) (by decide)

/-! ### C9: the exporter runs for exactly the export materializations -/

/-- The first statement `execute_model` issues for the model's kind. -/
def createStmt (model : ModelConfig) : String :=
  if model.materialization == "view" then viewSql model
  else if model.materialization == "table" then tableSql model
  else if model.materialization == "export_view" then viewSql model
  else if model.materialization == "export_table" then tableSql model
  else model.sql

/-- C9: during a non-dry execution whose create statement the engine accepts,
the exporter's COPY statement is issued if and only if the materialization
kind is `export_view` or `export_table`; in particular `export.enabled =
true` on a `view`, `table` or `external_table` model never triggers an
export. -/
theorem claim_C9_export_iff (eng : Engine) (model : ModelConfig)
    (config : WarehouseConfig) (db : WarehouseDB)
    (hddl : eng.fails (createStmt model) = none) (htr : db.trace = []) :
    (∃ s, EngineCall.exportCopy s ∈ (execute_model eng model config false db).1.trace) ↔
      (model.materialization = "export_view" ∨ model.materialization = "export_table") := by
  by_cases h1 : model.materialization = "view"
  · simp [createStmt, h1] at hddl
    simp [execute_model, stepModel, h1, hddl, htr]
  · have e1 : (model.materialization == "view") = false := beq_eq_false_iff_ne.mpr h1
    by_cases h2 : model.materialization = "table"
    · simp [createStmt, h2] at hddl
      simp [execute_model, stepModel, h2, hddl, htr]
    · have e2 : (model.materialization == "table") = false := beq_eq_false_iff_ne.mpr h2
      by_cases h3 : model.materialization = "export_view"
      · simp [createStmt, h3] at hddl
        cases hcopy : eng.fails (copySql model (exportPath config model)) with
        | none =>
          simp [execute_model, stepModel, exportModel, ModelConfig.should_export,
            h3, hddl, hcopy, htr]
        | some e =>
          simp [execute_model, stepModel, exportModel, ModelConfig.should_export,
            h3, hddl, hcopy, htr]
      · have e3 : (model.materialization == "export_view") = false := beq_eq_false_iff_ne.mpr h3
        by_cases h4 : model.materialization = "export_table"
        · simp [createStmt, h4] at hddl
          cases hcopy : eng.fails (copySql model (exportPath config model)) with
          | none =>
            simp [execute_model, stepModel, exportModel, ModelConfig.should_export,
              h4, hddl, hcopy, htr]
          | some e =>
            simp [execute_model, stepModel, exportModel, ModelConfig.should_export,
              h4, hddl, hcopy, htr]
        · have e4 : (model.materialization == "export_table") = false :=
            beq_eq_false_iff_ne.mpr h4
          by_cases h5 : model.materialization = "external_table"
          · simp [createStmt, h5] at hddl
            simp [execute_model, stepModel, h5, hddl, htr]
          · have e5 : (model.materialization == "external_table") = false :=
              beq_eq_false_iff_ne.mpr h5
            simp [execute_model, stepModel, e1, e2, e3, e4, e5, htr, h3, h4]

/-- Model with `export.enabled = true` but plain `view` materialization. -/
def enabledViewM : ModelConfig :=
  { name := "e", layer := "demo", exportConf := { enabled := true } }

/-- Witness for C9: the enabled-but-view model never reaches the exporter. -/
theorem claim_C9_export_iff_witness :
    (∃ s, EngineCall.exportCopy s ∈
      (execute_model okEngine enabledViewM { } false { }).1.trace) ↔
      (enabledViewM.materialization = "export_view" ∨
        enabledViewM.materialization = "export_table") :=
  claim_C9_export_iff okEngine enabledViewM { } { } rfl rfl

/-! ## Catalog generation (`deploy.py`)

`generate_catalog` reads the schema.yml files under the models directory and
the sizes of export artifacts on disk, and assembles the catalog manifest.
The parsed YAML files become the `schemaFiles` input (files that are empty or
lack a `models` key are already skipped), the filesystem `stat` becomes the
`sizes` lookup keyed by export-relative path, and the `CURRENT_TIMESTAMP`
read from DuckDB becomes the `now` argument. -/

/-- Deployment configuration (`DeploymentConfig` in transformations/config.py);
only the fields `generate_catalog` reads are modelled.  The field
`dataPrefix` is named `data_prefix` in the source. -/
structure DeploymentConfig where
  public_url : Option String := none
  dataPrefix : String := "data"
deriving Repr, DecidableEq

/-- One column entry of a schema.yml model block. -/
structure ColumnSpec where
  name : String
  description : Option String := none
  data_type : Option String := none
deriving Repr, DecidableEq

/-- The export block of a schema.yml model block. -/
structure ExportSpec where
  enabled : Bool := false
  path : Option String := none
  format : Option String := none
  compression : Option String := none
deriving Repr, DecidableEq

/-- One model block of a parsed schema.yml file (`exportSpec` is the key
`export` in the YAML). -/
structure SchemaModel where
  name : String
  description : Option String := none
  materialized : Option String := none
  columns : List ColumnSpec := []
  exportSpec : Option ExportSpec := none
deriving Repr, DecidableEq

/-- One parsed schema.yml file: `layer` is the file's directory relative to
the models directory (`default` at the root). -/
structure SchemaFile where
  layer : String
  models : List SchemaModel
deriving Repr, DecidableEq

/-- A column entry of the catalog. -/
structure CatalogColumn where
  name : String
  description : String
  data_type : String
deriving Repr, DecidableEq

/-- Export metadata of a catalog table.  `file_size_centi_mb` stands for the
source's `file_size_mb = round(bytes / 1024 / 1024, 2)`: the float rounding
is abstracted as a deterministic integer function of the byte size (no claim
depends on its value). -/
structure CatalogExport where
  path : String
  format : String
  compression : String
  file_size_bytes : Nat
  file_size_centi_mb : Nat
  url : Option String := none
deriving Repr, DecidableEq

/-- One table entry of the catalog (`exportInfo` is the key `export` in the
JSON). -/
structure CatalogTable where
  name : String
  layer : String
  full_name : String
  description : String
  columns : List CatalogColumn
  materialization : String
  exportInfo : Option CatalogExport := none
deriving Repr, DecidableEq

/-- The catalog manifest. -/
structure Catalog where
  version : String
  generated_at : Nat
  public_url : Option String
  tables : List (String × CatalogTable)
deriving Repr, DecidableEq

/-- Python dict insertion `catalog["tables"][full_name] = info`: an existing
key keeps its position and gets the new value, a new key is appended. -/
def dictInsert (l : List (String × CatalogTable)) (k : String) (v : CatalogTable) :
    List (String × CatalogTable) :=
  if l.any (fun p => p.1 == k) then
    l.map (fun p => if p.1 == k then (k, v) else p)
  else l ++ [(k, v)]

/-- The `table_info` built for one schema.yml model block: name metadata,
column docs (defaults for missing descriptions and types), materialization
(default `view`), and the export block when it is enabled, has a path, and
the artifact exists on disk (adding the public URL when configured). -/
def catalogTableOf (dc : DeploymentConfig) (sizes : String → Option Nat)
    (layer : String) (model : SchemaModel) : CatalogTable :=
  let full_name := if layer ≠ "default" then layer ++ "." ++ model.name else model.name
  let base : CatalogTable :=
    { name := model.name, layer := layer, full_name := full_name,
      description := (model.description).getD "",
      columns := model.columns.map (fun c =>
        { name := c.name, description := (c.description).getD "",
          data_type := (c.data_type).getD "unknown" }),
      materialization := (model.materialized).getD "view" }
  match model.exportSpec with
  | none => base
  | some ex =>
    if ex.enabled then
      match ex.path with
      | none => base
      | some p =>
        match sizes p with
        | none => base
        | some bytes =>
          { base with
            exportInfo := some
              { path := p, format := ex.format.getD "parquet",
                compression := ex.compression.getD "zstd",
                file_size_bytes := bytes,
                file_size_centi_mb := bytes * 100 / (1024 * 1024),
                url := match dc.public_url with
                       | some u => some (u ++ "/" ++ dc.dataPrefix ++ "/" ++ p)
                       | none => none } }
    else base

/-- `generate_catalog` (deploy.py lines 21-128): fold every model block of
every schema file into the tables dict, then stamp the generation time.
Writing `catalog.json` to disk is a side effect outside the returned value;
the `warehouse_config` parameter is kept for interface fidelity (its
`models_dir` determined `schemaFiles` and its `export_dir` the `sizes`
lookup). -/
def generate_catalog (wh : WarehouseConfig) (dc : DeploymentConfig)
    (schemaFiles : List SchemaFile) (sizes : String → Option Nat) (now : Nat) : Catalog :=
  let tables := schemaFiles.foldl (fun acc sf =>
    sf.models.foldl (fun acc2 model =>
      let t := catalogTableOf dc sizes sf.layer model
      dictInsert acc2 t.full_name t) acc) []
  { version := "1.0", generated_at := now, public_url := dc.public_url, tables := tables }

/-- C8: running `generate_catalog` twice against unchanged schema files and
unchanged export artifacts yields catalogs equal in every field except
`generated_at`: only the generation timestamp depends on the run. -/
theorem claim_C8_catalog_idempotent (wh : WarehouseConfig) (dc : DeploymentConfig)
    (schemaFiles : List SchemaFile) (sizes : String → Option Nat) (t1 t2 : Nat) :
    generate_catalog wh dc schemaFiles sizes t1 =
      { generate_catalog wh dc schemaFiles sizes t2 with generated_at := t1 } := rfl

end OmicidxWarehouse

section SanityChecks
open OmicidxWarehouse

example :
    topological_sort
      [ { name := "x", layer := "raw" },
        { name := "y", layer := "staging", depends_on := ["raw.x"] },
        { name := "z", layer := "mart", depends_on := ["staging.y"] } ] =
    .ok
      [ { name := "x", layer := "raw" },
        { name := "y", layer := "staging", depends_on := ["raw.x"] },
        { name := "z", layer := "mart", depends_on := ["staging.y"] } ] := by
  decide

example :
    topological_sort
      [ { name := "a", layer := "demo", depends_on := ["demo.b"] },
        { name := "b", layer := "demo", depends_on := ["demo.a"] } ] =
    .error (cycleMsg ("demo.a")) := by
  decide

end SanityChecks
